import Mathlib

/-!
Verification of the editing substrate of the `enacs` editor core
(rope-backed buffer, cursor set, mark ring, kill ring, undo history,
minibuffer, key resolver) against its natural-language specification.

Rust values are shallowly embedded:
* `usize` / `CharOffset(usize)` as `Nat` (all claim-relevant arithmetic stays
  far from overflow, and the source never relies on wrapping);
* the rope (`ropey::Rope`, char-indexed) and Rust `String` edit texts as
  `List Char`, with `String` byte lengths computed from UTF-8 widths where the
  source calls the byte-level `String::len`;
* mutation as explicit state passing, `&mut self` methods becoming
  `State → State` (or returning a pair when the Rust method also returns a
  value);
* Rust panics (out-of-bounds `String::insert` / `String::remove`) as `Option`
  results, `none` meaning the call panics.
-/

/-- Rust's stable sorts (`Vec::sort`, `sort_by`, `sort_by_key`): insertion of
`x` after every already-placed element `y` unless `y` must come strictly after
`x`, which keeps the original order of elements that compare equal. `lt x y`
means `x` must come strictly before `y`. -/
def insOrd (lt : α → α → Bool) (x : α) : List α → List α
  | [] => [x]
  | y :: ys => if lt y x then y :: insOrd lt x ys else x :: y :: ys

/-- Stable sort: fold `insOrd` from the right so earlier elements end up before
equal later ones. -/
def sortStable (lt : α → α → Bool) (l : List α) : List α :=
  l.foldr (insOrd lt) []

/-- `rope.insert(i, s)` at char index `i` (ropey semantics; the source always
clamps `i` to `len_chars` before calling). -/
def ropeInsert (t : List Char) (i : Nat) (s : List Char) : List Char :=
  t.take i ++ s ++ t.drop i

/-- `rope.remove(start..stop)` on char indices. -/
def ropeRemove (t : List Char) (start stop : Nat) : List Char :=
  t.take start ++ t.drop stop

/-- Rust `char::is_whitespace` (Unicode `White_Space`). -/
def rustIsWhitespace (c : Char) : Bool :=
  let n := c.toNat
  (0x09 ≤ n && n ≤ 0x0D) || n = 0x20 || n = 0x85 || n = 0xA0 || n = 0x1680 ||
  (0x2000 ≤ n && n ≤ 0x200A) || n = 0x2028 || n = 0x2029 || n = 0x202F ||
  n = 0x205F || n = 0x3000

/-- Rust `char::is_ascii_punctuation`. -/
def rustIsAsciiPunctuation (c : Char) : Bool :=
  let n := c.toNat
  (0x21 ≤ n && n ≤ 0x2F) || (0x3A ≤ n && n ≤ 0x40) ||
  (0x5B ≤ n && n ≤ 0x60) || (0x7B ≤ n && n ≤ 0x7E)

/-- Rust `char::is_control` (Unicode `Cc`: U+0000..U+001F and U+007F..U+009F). -/
def rustIsControl (c : Char) : Bool :=
  let n := c.toNat
  n ≤ 0x1F || (0x7F ≤ n && n ≤ 0x9F)

/-- Number of bytes of the UTF-8 encoding of `c`; `Rust String::len` of a text
is the sum of these. -/
def utf8Len (c : Char) : Nat :=
  if c.toNat < 0x80 then 1
  else if c.toNat < 0x800 then 2
  else if c.toNat < 0x10000 then 3
  else 4

/-- Rust `String::len` (byte length) of a text modelled as `List Char`. -/
def byteLen (t : List Char) : Nat :=
  (t.map utf8Len).sum

/-! ## Kill ring — `src/core/kill_ring.rs`

`entries` is the `VecDeque<String>` with the front (newest entry, index 0) at
the list head; edit texts are `List Char`. -/

structure KillRing where
  entries : List (List Char)
  capacity : Nat
  yank_pointer : Nat
  last_was_kill : Bool
  deriving Repr, DecidableEq

namespace KillRing

/-- `KillRing::new(capacity)`. -/
def new (capacity : Nat) : KillRing :=
  ⟨[], capacity, 0, false⟩

/-- `KillRing::push(text, append)`. -/
def push (r : KillRing) (text : List Char) (append : Bool) : KillRing :=
  if text.isEmpty then r
  else
    let entries :=
      if append && r.last_was_kill && !r.entries.isEmpty then
        match r.entries with
        | front :: rest => (front ++ text) :: rest
        | [] => r.entries
      else if r.capacity ≤ r.entries.length then
        text :: r.entries.dropLast
      else
        text :: r.entries
    { r with entries := entries, yank_pointer := 0, last_was_kill := true }

/-- `KillRing::push_prepend(text)`. -/
def push_prepend (r : KillRing) (text : List Char) : KillRing :=
  if text.isEmpty then r
  else
    let entries :=
      if r.last_was_kill && !r.entries.isEmpty then
        match r.entries with
        | front :: rest => (text ++ front) :: rest
        | [] => r.entries
      else if r.capacity ≤ r.entries.length then
        text :: r.entries.dropLast
      else
        text :: r.entries
    { r with entries := entries, yank_pointer := 0, last_was_kill := true }

/-- `KillRing::current()`. -/
def current (r : KillRing) : Option (List Char) :=
  r.entries.get? r.yank_pointer

/-- `KillRing::yank()`. -/
def yank (r : KillRing) : Option (List Char) :=
  r.entries.head?

/-- `KillRing::yank_pop()`: advance the pointer modulo the length and return
the entry now under it (reads `&mut self`, so the new ring is returned too). -/
def yank_pop (r : KillRing) : Option (List Char) × KillRing :=
  if r.entries.isEmpty then (none, r)
  else
    let p := (r.yank_pointer + 1) % r.entries.length
    (r.entries.get? p, { r with yank_pointer := p })

/-- `KillRing::reset_yank_pointer()`. -/
def reset_yank_pointer (r : KillRing) : KillRing :=
  { r with yank_pointer := 0 }

/-- `KillRing::set_last_was_kill(was_kill)`. -/
def set_last_was_kill (r : KillRing) (was_kill : Bool) : KillRing :=
  { r with last_was_kill := was_kill }

/-- `KillRing::len()`. -/
def len (r : KillRing) : Nat :=
  r.entries.length

end KillRing

/-! ## Mark ring — `src/core/mark.rs`

`Mark(CharOffset)` is a bare position, so a mark is a `Nat`; `marks` is the
`VecDeque<Mark>` with its front at the list head. -/

structure MarkRing where
  marks : List Nat
  capacity : Nat
  deriving Repr, DecidableEq

namespace MarkRing

/-- `MarkRing::new(capacity)`. -/
def new (capacity : Nat) : MarkRing :=
  ⟨[], capacity⟩

/-- `MarkRing::push(mark)`. -/
def push (r : MarkRing) (mark : Nat) : MarkRing :=
  if r.marks.head? = some mark then r
  else if r.capacity ≤ r.marks.length then
    { r with marks := mark :: r.marks.dropLast }
  else
    { r with marks := mark :: r.marks }

/-- `MarkRing::adjust_after_insert(insert_pos, len)`: note the `>=` — marks
*at* the insertion point shift too. -/
def adjust_after_insert (r : MarkRing) (insert_pos len : Nat) : MarkRing :=
  { r with marks := r.marks.map fun m => if insert_pos ≤ m then m + len else m }

/-- `MarkRing::adjust_after_delete(delete_start, delete_end)`. -/
def adjust_after_delete (r : MarkRing) (delete_start delete_end : Nat) : MarkRing :=
  let deleted_len := delete_end - delete_start
  { r with marks := r.marks.map fun m =>
      if delete_end ≤ m then m - deleted_len
      else if delete_start < m then delete_start
      else m }

end MarkRing

/-! ## Cursors — `src/core/cursor.rs`

`src/core/cursor.rs` defines `Cursor { position, goal_column, mark,
mark_active }`, but its callers in this repository use two further fields that
are missing from that file: `src/core/buffer.rs` and `src/commands/kill_yank.rs`
address cursors through `cursor.id : CursorId`, and `src/commands/kill_yank.rs`
reads `cursor.kill_ring`. Modelled from the spec: a cursor additionally
carries a stable `id` (spec §3) and, per the `kill_yank.rs` callers, its own
kill ring. The operations below from `cursor.rs` touch neither field. -/

structure Cursor where
  id : Nat
  position : Nat
  goal_column : Option Nat
  mark : Option Nat
  mark_active : Bool
  kill_ring : KillRing
  deriving Repr, DecidableEq

namespace Cursor

/-- `Cursor::default()` (id and kill ring as modelled above; fresh ids come
from a process-wide counter that no claim needs). -/
def default : Cursor :=
  ⟨0, 0, none, none, false, KillRing.new 60⟩

/-- `Cursor::deactivate_mark()`. -/
def deactivate_mark (c : Cursor) : Cursor :=
  { c with mark_active := false }

/-- `Cursor::set_mark(pos)`. -/
def set_mark (c : Cursor) (pos : Nat) : Cursor :=
  { c with mark := some pos, mark_active := true }

end Cursor

structure CursorSet where
  primary : Cursor
  secondary : List Cursor
  deriving Repr, DecidableEq

namespace CursorSet

/-- `CursorSet::new()` / `default()`. -/
def new : CursorSet :=
  ⟨Cursor.default, []⟩

/-- A single-cursor set at `position` (all other fields default). -/
def single (position : Nat) : CursorSet :=
  ⟨{ Cursor.default with position := position }, []⟩

/-- `CursorSet::all_cursors()`, primary first. -/
def all_cursors (s : CursorSet) : List Cursor :=
  s.primary :: s.secondary

/-- `CursorSet::positions_descending()`: collect, `sort()` (stable ascending),
`reverse()`. -/
def positions_descending (s : CursorSet) : List Nat :=
  (sortStable (· < ·) (s.all_cursors.map (·.position))).reverse

/-- `CursorSet::adjust_positions_after_insert(at, len)`: strictly-greater
positions and marks shift. -/
def adjust_positions_after_insert (s : CursorSet) (insert_pos len : Nat) : CursorSet :=
  let adj := fun (c : Cursor) =>
    let c := if insert_pos < c.position then { c with position := c.position + len } else c
    match c.mark with
    | some m => if insert_pos < m then { c with mark := some (m + len) } else c
    | none => c
  ⟨adj s.primary, s.secondary.map adj⟩

/-- `CursorSet::adjust_positions_after_delete(delete_start, delete_end)`. -/
def adjust_positions_after_delete (s : CursorSet) (delete_start delete_end : Nat) : CursorSet :=
  let deleted_len := delete_end - delete_start
  let adj := fun (c : Cursor) =>
    let c :=
      if delete_end ≤ c.position then { c with position := c.position - deleted_len }
      else if delete_start < c.position then { c with position := delete_start }
      else c
    match c.mark with
    | some m =>
      if delete_end ≤ m then { c with mark := some (m - deleted_len) }
      else if delete_start < m then { c with mark := some delete_start }
      else c
    | none => c
  ⟨adj s.primary, s.secondary.map adj⟩

/-- `Vec::dedup_by_key(|c| c.position)`: drop elements whose position equals
the last retained element's, keeping the first of each run. -/
def dedupByPos : List Cursor → List Cursor
  | [] => []
  | [c] => [c]
  | a :: b :: rest =>
    if a.position = b.position then dedupByPos (a :: rest)
    else a :: dedupByPos (b :: rest)
  termination_by l => l.length

/-- `CursorSet::sort_and_merge()`: no-op when there are no secondaries;
otherwise stable sort by position, drop consecutive duplicates keeping the
first, head becomes primary. -/
def sort_and_merge (s : CursorSet) : CursorSet :=
  if s.secondary.isEmpty then s
  else
    let all := sortStable (fun a b => a.position < b.position) (s.primary :: s.secondary)
    let all := dedupByPos all
    match all with
    | [] => s
    | p :: rest => ⟨p, rest⟩

/-- Modelled from the spec: `CursorSet::sort` is called by `src/core/buffer.rs`
after every mutation but is missing from `src/core/cursor.rs`; spec invariant
I2 ("after any mutation the set remains sorted by position with primary at the
minimum offset after `sort_and_merge`") makes it `sort_and_merge`. -/
def sort (s : CursorSet) : CursorSet :=
  s.sort_and_merge

/-- Modelled from the spec: `CursorSet::get_by_id` is used by
`src/core/buffer.rs` (`insert_at_cursors`) but missing from
`src/core/cursor.rs`; ids are stable and unique (spec §3), so it is the first
cursor bearing the id. -/
def get_by_id (s : CursorSet) (id : Nat) : Option Cursor :=
  s.all_cursors.find? (fun c => c.id = id)

/-- `CursorSet::deactivate_all_marks()`. -/
def deactivate_all_marks (s : CursorSet) : CursorSet :=
  ⟨s.primary.deactivate_mark, s.secondary.map Cursor.deactivate_mark⟩

end CursorSet

/-! ## Undo history — `src/core/undo.rs` -/

inductive Edit where
  | insert (position : Nat) (text : List Char)
  | delete (position : Nat) (text : List Char)
  deriving Repr, DecidableEq

namespace Edit

/-- `Edit::inverse()`. -/
def inverse : Edit → Edit
  | .insert position text => .delete position text
  | .delete position text => .insert position text

/-- The char position of an edit (the `sort_by_key` key in
`try_coalesce_batch`). -/
def pos : Edit → Nat
  | .insert position _ => position
  | .delete position _ => position

/-- The text of an edit (the word-boundary scan in `try_coalesce_batch`). -/
def text : Edit → List Char
  | .insert _ text => text
  | .delete _ text => text

/-- `matches!(e, Edit::Insert { .. })`. -/
def isInsert : Edit → Bool
  | .insert _ _ => true
  | .delete _ _ => false

/-- `matches!(e, Edit::Delete { .. })`. -/
def isDelete : Edit → Bool
  | .insert _ _ => false
  | .delete _ _ => true

end Edit

structure UndoEntry where
  edits : List Edit
  cursors_before : Option CursorSet
  deriving Repr, DecidableEq

inductive CoalesceMode where
  | insertion
  | deletion
  | none
  deriving Repr, DecidableEq

structure UndoTree where
  entries : List UndoEntry
  undo_index : Option Nat
  pending_edits : List Edit
  pending_cursors : Option CursorSet
  coalesce_mode : CoalesceMode
  last_insert_end : Option Nat
  last_delete_pos : Option Nat
  max_entries : Nat
  batch_depth : Nat
  deriving Repr, DecidableEq

inductive UndoEdit where
  | insert (position : Nat) (text : List Char)
  | delete (position : Nat) (len : Nat)
  deriving Repr, DecidableEq

inductive UndoResult where
  | apply (edits : List UndoEdit) (restore_cursors : Option CursorSet)
  | nothing
  deriving Repr, DecidableEq

namespace UndoTree

/-- `UndoTree::new(max_entries)`. -/
def new (max_entries : Nat) : UndoTree :=
  ⟨[], none, [], none, .none, none, none, max_entries, 0⟩

/-- `UndoTree::is_word_boundary(c)`: whitespace or ASCII punctuation. -/
def is_word_boundary (c : Char) : Bool :=
  rustIsWhitespace c || rustIsAsciiPunctuation c

/-- `UndoTree::begin_batch()`. -/
def begin_batch (t : UndoTree) : UndoTree :=
  { t with batch_depth := t.batch_depth + 1 }

/-- `UndoTree::gc_if_needed()`. -/
def gc_if_needed (t : UndoTree) : UndoTree :=
  if t.entries.length ≤ t.max_entries then t
  else
    let remove_count := t.entries.length - t.max_entries
    { t with
      entries := t.entries.drop remove_count
      undo_index := t.undo_index.map (· - remove_count) }

/-- `UndoTree::flush_pending()`. -/
def flush_pending (t : UndoTree) : UndoTree :=
  if t.pending_edits.isEmpty then t
  else
    gc_if_needed
      { t with
        entries := t.entries ++ [⟨t.pending_edits, t.pending_cursors⟩]
        pending_edits := []
        pending_cursors := none
        coalesce_mode := .none }

/-- The zipped adjacency check of `try_coalesce_batch`: walk the two
position-sorted `enumerate`d edit lists in lockstep, carrying the cumulative
char count of the earlier (sorted) committed inserts as `adjustment`, and
collect the index pairs to merge. `none` means a check failed. -/
def checkPairs : List (Nat × Edit) → List (Nat × Edit) → Nat →
    Option (List (Nat × Nat))
  | [], [], _ => some []
  | (li, .insert lpos ltext) :: ls, (pi, .insert ppos _) :: ps, adjustment =>
    if ppos = lpos + ltext.length + adjustment then
      (checkPairs ls ps (adjustment + ltext.length)).map ((li, pi) :: ·)
    else none
  | (li, .delete lpos _) :: ls, (pi, .delete ppos ptext) :: ps, adjustment =>
    let is_backspace := ppos + ptext.length = lpos
    let is_forward := ppos = lpos
    if is_backspace || is_forward then
      (checkPairs ls ps adjustment).map ((li, pi) :: ·)
    else none
  | _, _, _ => none

/-- The merge step of `try_coalesce_batch` for one `(last_idx, pend_idx)`
pair: append for inserts; prepend and move the position for a backspace
delete, append otherwise. -/
def mergeEdit : Edit → Edit → Edit
  | .insert lpos ltext, .insert _ ptext => .insert lpos (ltext ++ ptext)
  | .delete lpos ltext, .delete ppos ptext =>
    if ppos + ptext.length = lpos then .delete ppos (ptext ++ ltext)
    else .delete lpos (ltext ++ ptext)
  | le, _ => le

/-- Apply all collected merge pairs to the committed entry's edit list. -/
def applyPairs (edits pending : List Edit) (pairs : List (Nat × Nat)) : List Edit :=
  pairs.foldl
    (fun eds (pr : Nat × Nat) =>
      match eds.get? pr.1, pending.get? pr.2 with
      | some le, some pe => eds.set pr.1 (mergeEdit le pe)
      | _, _ => eds)
    edits

/-- `UndoTree::try_coalesce_batch()`: `none` models returning `false` (the
committed entries are untouched in that case — every mutation happens after
all checks pass). -/
def try_coalesce_batch (t : UndoTree) : Option UndoTree :=
  match t.entries.getLast? with
  | Option.none => none
  | some last_entry =>
    if ¬ last_entry.edits.length = t.pending_edits.length then none
    else
      let all_inserts := t.pending_edits.all (·.isInsert) && last_entry.edits.all (·.isInsert)
      let all_deletes := t.pending_edits.all (·.isDelete) && last_entry.edits.all (·.isDelete)
      if ¬ (all_inserts || all_deletes) then none
      else if t.pending_edits.any (fun e => e.text.any is_word_boundary) then none
      else if last_entry.edits.any (fun e => e.text.any is_word_boundary) then none
      else
        let last_sorted := sortStable (fun a b => a.2.pos < b.2.pos) last_entry.edits.enum
        let pending_sorted := sortStable (fun a b => a.2.pos < b.2.pos) t.pending_edits.enum
        match checkPairs last_sorted pending_sorted 0 with
        | Option.none => none
        | some pairs =>
          let merged := { last_entry with edits := applyPairs last_entry.edits t.pending_edits pairs }
          some { t with entries := t.entries.dropLast ++ [merged] }

/-- `UndoTree::end_batch()`. -/
def end_batch (t : UndoTree) : UndoTree :=
  if 0 < t.batch_depth then
    let t := { t with batch_depth := t.batch_depth - 1 }
    if t.batch_depth = 0 ∧ ¬ t.pending_edits.isEmpty then
      match try_coalesce_batch t with
      | some t' => { t' with pending_edits := [], pending_cursors := none }
      | Option.none => flush_pending t
    else t
  else t

/-- `UndoTree::should_coalesce_insert(position, text)`. Note the source checks
`text.len() != 1` on the *byte* length of the Rust `String`. -/
def should_coalesce_insert (t : UndoTree) (position : Nat) (text : List Char) : Bool :=
  if ¬ t.coalesce_mode = CoalesceMode.insertion then false
  else
    match t.last_insert_end with
    | Option.none => false
    | some last_end =>
      if ¬ position = last_end then false
      else if ¬ byteLen text = 1 then false
      else
        match text.head? with
        | Option.none => false
        | some c =>
          if is_word_boundary c then false
          else
            match t.pending_edits.getLast? with
            | some (.insert _ pending_text) =>
              match pending_text.getLast? with
              | some last_char => ¬ is_word_boundary last_char
              | Option.none => true
            | _ => true

/-- `UndoTree::should_coalesce_delete(position, text)` (this one counts
chars). -/
def should_coalesce_delete (t : UndoTree) (position : Nat) (text : List Char) : Bool :=
  if ¬ t.coalesce_mode = CoalesceMode.deletion then false
  else if ¬ text.length = 1 then false
  else
    match t.last_delete_pos with
    | Option.none => false
    | some last_pos =>
      let is_backspace := position + text.length = last_pos
      let is_forward_delete := position = last_pos
      if ¬ (is_backspace || is_forward_delete) then false
      else
        match text.head? with
        | some c => ¬ is_word_boundary c
        | Option.none => false

/-- `UndoTree::record_insert(position, text)`. -/
def record_insert (t : UndoTree) (position : Nat) (text : List Char) : UndoTree :=
  let t := { t with undo_index := none }
  let text_len := text.length
  if 0 < t.batch_depth then
    { t with pending_edits := t.pending_edits ++ [.insert position text] }
  else
    match t.should_coalesce_insert position text, t.pending_edits.getLast? with
    | true, some (.insert p existing) =>
      { t with
        pending_edits := t.pending_edits.dropLast ++ [.insert p (existing ++ text)]
        last_insert_end := some (position + text_len) }
    | _, _ =>
      let t := t.flush_pending
      { t with
        pending_edits := t.pending_edits ++ [.insert position text]
        coalesce_mode := .insertion
        last_insert_end := some (position + text_len)
        last_delete_pos := none }

/-- `UndoTree::record_delete(position, text)`. -/
def record_delete (t : UndoTree) (position : Nat) (text : List Char) : UndoTree :=
  let t := { t with undo_index := none }
  if 0 < t.batch_depth then
    { t with pending_edits := t.pending_edits ++ [.delete position text] }
  else
    match t.should_coalesce_delete position text, t.pending_edits.getLast? with
    | true, some (.delete del_pos existing) =>
      let is_backspace := position < del_pos
      if is_backspace then
        { t with
          pending_edits := t.pending_edits.dropLast ++ [.delete position (text ++ existing)]
          last_delete_pos := some position }
      else
        { t with
          pending_edits := t.pending_edits.dropLast ++ [.delete del_pos (existing ++ text)]
          last_delete_pos := some position }
    | _, _ =>
      let t := t.flush_pending
      { t with
        pending_edits := t.pending_edits ++ [.delete position text]
        coalesce_mode := .deletion
        last_delete_pos := some position
        last_insert_end := none }

/-- `UndoTree::set_cursors_before(cursors)` (idempotent: first call wins). -/
def set_cursors_before (t : UndoTree) (cursors : CursorSet) : UndoTree :=
  if t.pending_cursors.isNone then { t with pending_cursors := some cursors }
  else t

/-- `UndoTree::break_coalesce()`. -/
def break_coalesce (t : UndoTree) : UndoTree :=
  let t := t.flush_pending
  { t with coalesce_mode := .none, last_insert_end := none, last_delete_pos := none }

/-- `UndoTree::add_boundary()`. -/
def add_boundary (t : UndoTree) : UndoTree :=
  t.break_coalesce

/-- Conversion of an inverse `Edit` to the `UndoEdit` handed to the buffer. -/
def toUndoEdit : Edit → UndoEdit
  | .insert position text => .insert position text
  | .delete position text => .delete position text.length

/-- `UndoTree::undo()`: flush, read the entry *below* the effective index,
append its inverse as a fresh entry, and step the index back. The
out-of-bounds branch (`entries[idx - 1]` would panic in Rust, and is
unreachable because the index never exceeds the entry count) is modelled as
`Nothing`. -/
def undo (t : UndoTree) : UndoResult × UndoTree :=
  let t := t.flush_pending
  let idx := t.undo_index.getD t.entries.length
  if idx = 0 then (.nothing, t)
  else
    match t.entries.get? (idx - 1) with
    | Option.none => (.nothing, t)
    | some entry =>
      let inverse_edits := entry.edits.reverse.map Edit.inverse
      let t := { t with
        entries := t.entries ++ [⟨inverse_edits, none⟩]
        undo_index := some (idx - 1) }
      (.apply (inverse_edits.map toUndoEdit) entry.cursors_before, t)

/-- `UndoTree::redo()`: the identical call. -/
def redo (t : UndoTree) : UndoResult × UndoTree :=
  t.undo

/-- `UndoTree::can_undo()`. -/
def can_undo (t : UndoTree) : Bool :=
  0 < t.undo_index.getD t.entries.length || ¬ t.pending_edits.isEmpty

/-- `UndoTree::can_redo()`. -/
def can_redo (t : UndoTree) : Bool :=
  t.can_undo

end UndoTree

/-! ## Buffer — `src/core/buffer.rs`

`file_path` is kept as an opaque optional string and `BufferMode` as its tag;
ids come from a process-wide counter not modelled (each construction site can
pick any id — no claim depends on freshness). -/

inductive BufferMode where
  | fundamental
  | text
  | readOnly
  deriving Repr, DecidableEq

structure Buffer where
  id : Nat
  name : String
  file_path : Option String
  text : List Char
  mark_ring : MarkRing
  modified : Bool
  read_only : Bool
  mode : BufferMode
  undo_tree : UndoTree
  deriving Repr, DecidableEq

namespace Buffer

/-- `Buffer::new(name)` (with an explicit id in place of the global counter). -/
def new (id : Nat) (name : String) : Buffer :=
  ⟨id, name, none, [], MarkRing.new 16, false, false, .fundamental, UndoTree.new 10000⟩

/-- `Buffer::from_string(name, content)`. -/
def from_string (id : Nat) (name : String) (content : List Char) : Buffer :=
  ⟨id, name, none, content, MarkRing.new 16, false, false, .fundamental, UndoTree.new 10000⟩

/-- The body of `insert_string`'s per-position loop. -/
def insertStringStep (s : List Char) (char_count : Nat)
    (acc : Buffer × CursorSet) (pos : Nat) : Buffer × CursorSet :=
  let b := acc.1
  let cursors := acc.2
  let char_idx := min pos b.text.length
  let b := { b with undo_tree := b.undo_tree.record_insert char_idx s }
  let b := { b with text := ropeInsert b.text char_idx s }
  let cursors := cursors.adjust_positions_after_insert char_idx char_count
  (b, cursors)

/-- `Buffer::insert_string(cursors, s)`. -/
def insert_string (b : Buffer) (cursors : CursorSet) (s : List Char) :
    Buffer × CursorSet :=
  if b.read_only || s.isEmpty then (b, cursors)
  else
    let is_newline := s.contains '\n'
    let b := if is_newline then { b with undo_tree := b.undo_tree.add_boundary } else b
    let b := { b with undo_tree := b.undo_tree.set_cursors_before cursors }
    let positions := cursors.positions_descending
    let char_count := s.length
    let b := { b with undo_tree := b.undo_tree.begin_batch }
    let r := positions.foldl (insertStringStep s char_count) (b, cursors)
    let b := { r.1 with undo_tree := r.1.undo_tree.end_batch }
    let cursors : CursorSet :=
      ⟨{ r.2.primary with
          position := r.2.primary.position + char_count, mark_active := false },
        r.2.secondary.map fun c =>
          { c with position := c.position + char_count, mark_active := false }⟩
    let b := { b with modified := true }
    let cursors := cursors.sort
    let b := if is_newline then { b with undo_tree := b.undo_tree.add_boundary } else b
    (b, cursors)

/-- `Buffer::insert_at_cursors(cursors, texts)`. -/
def insert_at_cursors (b : Buffer) (cursors : CursorSet)
    (texts : List (Nat × List Char)) : Buffer × CursorSet :=
  if b.read_only || texts.isEmpty then (b, cursors)
  else
    let ops : List (Nat × Nat × List Char) :=
      texts.filterMap fun it =>
        if it.2.isEmpty then none
        else (cursors.get_by_id it.1).map fun c => (it.1, c.position, it.2)
    let ops := sortStable (fun a b => b.2.1 < a.2.1) ops
    let b := { b with undo_tree := b.undo_tree.begin_batch }
    let r := ops.foldl
      (fun (acc : Buffer × CursorSet) op =>
        let b := acc.1
        let cursors := acc.2
        let cursor_id := op.1
        let char_idx := min op.2.1 b.text.length
        let char_count := op.2.2.length
        let b := { b with undo_tree := b.undo_tree.record_insert char_idx op.2.2 }
        let b := { b with text := ropeInsert b.text char_idx op.2.2 }
        let upd := fun (c : Cursor) =>
          let c :=
            if c.id = cursor_id then
              { c with position := char_idx + char_count, mark_active := false }
            else if char_idx < c.position then
              { c with position := c.position + char_count }
            else c
          match c.mark with
          | some m => if char_idx < m then { c with mark := some (m + char_count) } else c
          | none => c
        (b, ⟨upd cursors.primary, cursors.secondary.map upd⟩))
      (b, cursors)
    let b := { r.1 with undo_tree := r.1.undo_tree.end_batch }
    let b := { b with modified := true }
    (b, r.2.sort)

/-- `Buffer::delete_char_forward(cursors)`. -/
def delete_char_forward (b : Buffer) (cursors : CursorSet) :
    Buffer × CursorSet × Option Char :=
  if b.read_only then (b, cursors, none)
  else
    let positions := cursors.positions_descending
    let b := { b with undo_tree := b.undo_tree.begin_batch }
    let r := positions.foldl
      (fun (acc : Buffer × CursorSet × Option Char) pos =>
        let (b, cursors, deleted) := acc
        match b.text.get? pos with
        | some c =>
          let b := { b with undo_tree := b.undo_tree.record_delete pos [c] }
          let b := { b with text := ropeRemove b.text pos (pos + 1) }
          let cursors := cursors.adjust_positions_after_delete pos (pos + 1)
          (b, cursors, some c)
        | none => (b, cursors, deleted))
      (b, cursors, none)
    let b := { r.1 with undo_tree := r.1.undo_tree.end_batch }
    let b := if r.2.2.isSome then { b with modified := true } else b
    (b, r.2.1.sort, r.2.2)

/-- `Buffer::delete_char_backward(cursors)`. -/
def delete_char_backward (b : Buffer) (cursors : CursorSet) :
    Buffer × CursorSet × Option Char :=
  if b.read_only then (b, cursors, none)
  else
    let positions := cursors.positions_descending
    let b := { b with undo_tree := b.undo_tree.begin_batch }
    let r := positions.foldl
      (fun (acc : Buffer × CursorSet × Option Char) pos =>
        let (b, cursors, deleted) := acc
        if 0 < pos then
          let char_idx := pos - 1
          match b.text.get? char_idx with
          | some c =>
            let b := { b with undo_tree := b.undo_tree.record_delete char_idx [c] }
            let b := { b with text := ropeRemove b.text char_idx (char_idx + 1) }
            let cursors := cursors.adjust_positions_after_delete char_idx pos
            (b, cursors, some c)
          | none => (b, cursors, deleted)
        else (b, cursors, deleted))
      (b, cursors, none)
    let b := { r.1 with undo_tree := r.1.undo_tree.end_batch }
    let b := if r.2.2.isSome then { b with modified := true } else b
    (b, r.2.1.sort, r.2.2)

/-- `Buffer::delete_region(cursors, start, end)`. -/
def delete_region (b : Buffer) (cursors : CursorSet) (start stop : Nat) :
    Buffer × CursorSet × List Char :=
  if b.read_only || stop ≤ start then (b, cursors, [])
  else
    let start_idx := min start b.text.length
    let end_idx := min stop b.text.length
    if end_idx ≤ start_idx then (b, cursors, [])
    else
      let b := { b with undo_tree := b.undo_tree.break_coalesce }
      let deleted := (b.text.drop start_idx).take (end_idx - start_idx)
      let b := { b with undo_tree := b.undo_tree.record_delete start deleted }
      let b := { b with text := ropeRemove b.text start_idx end_idx }
      let cursors := cursors.adjust_positions_after_delete start stop
      let b := { b with mark_ring := b.mark_ring.adjust_after_delete start stop }
      let b := { b with modified := true }
      let cursors := cursors.sort
      let b := { b with undo_tree := b.undo_tree.break_coalesce }
      (b, cursors, deleted)

/-- `Buffer::delete_regions(cursors, regions)`. -/
def delete_regions (b : Buffer) (cursors : CursorSet)
    (regions : List (Nat × Nat × Nat)) : Buffer × CursorSet × List (Nat × List Char) :=
  if b.read_only then (b, cursors, [])
  else
    let ops := regions.filter fun r => r.2.1 < r.2.2
    let ops := sortStable (fun a b => b.2.1 < a.2.1) ops
    let b := { b with undo_tree := b.undo_tree.break_coalesce }
    let b := { b with undo_tree := b.undo_tree.begin_batch }
    let r := ops.foldl
      (fun (acc : Buffer × CursorSet × List (Nat × List Char)) op =>
        let (b, cursors, results) := acc
        let start_idx := min op.2.1 b.text.length
        let end_idx := min op.2.2 b.text.length
        if end_idx ≤ start_idx then (b, cursors, results)
        else
          let deleted := (b.text.drop start_idx).take (end_idx - start_idx)
          let b := { b with undo_tree := b.undo_tree.record_delete op.2.1 deleted }
          let b := { b with text := ropeRemove b.text start_idx end_idx }
          let cursors := cursors.adjust_positions_after_delete op.2.1 op.2.2
          let b := { b with mark_ring := b.mark_ring.adjust_after_delete op.2.1 op.2.2 }
          (b, cursors, results ++ [(op.1, deleted)]))
      (b, cursors, [])
    let b := { r.1 with undo_tree := r.1.undo_tree.end_batch }
    let b := { b with modified := true }
    (b, r.2.1.sort, r.2.2)

/-- `Buffer::apply_undo_edits(cursors, edits)`. -/
def apply_undo_edits (b : Buffer) (cursors : CursorSet) (edits : List UndoEdit) :
    Buffer × CursorSet :=
  let r := edits.foldl
    (fun (acc : Buffer × CursorSet) edit =>
      let (b, cursors) := acc
      match edit with
      | .insert position text =>
        let char_idx := min position b.text.length
        let b := { b with text := ropeInsert b.text char_idx text }
        let len := text.length
        let cursors := cursors.adjust_positions_after_insert position len
        let cursors := ⟨{ cursors.primary with position := char_idx + len }, cursors.secondary⟩
        (b, cursors)
      | .delete position len =>
        let start := min position b.text.length
        let stop := min (start + len) b.text.length
        if start < stop then
          let b := { b with text := ropeRemove b.text start stop }
          let cursors := cursors.adjust_positions_after_delete position stop
          let cursors := ⟨{ cursors.primary with position := position }, cursors.secondary⟩
          (b, cursors)
        else (b, cursors))
    (b, cursors)
  ({ r.1 with modified := true }, r.2)

/-- `Buffer::undo(cursors)`. -/
def undo (b : Buffer) (cursors : CursorSet) : Buffer × CursorSet × Bool :=
  let u := b.undo_tree.undo
  let b := { b with undo_tree := u.2 }
  match u.1 with
  | .apply edits restore_cursors =>
    let r := b.apply_undo_edits cursors edits
    (r.1, restore_cursors.getD r.2, true)
  | .nothing => (b, cursors, false)

/-- `Buffer::redo(cursors)`. -/
def redo (b : Buffer) (cursors : CursorSet) : Buffer × CursorSet × Bool :=
  let u := b.undo_tree.redo
  let b := { b with undo_tree := u.2 }
  match u.1 with
  | .apply edits restore_cursors =>
    let r := b.apply_undo_edits cursors edits
    (r.1, restore_cursors.getD r.2, true)
  | .nothing => (b, cursors, false)

/-- `Buffer::add_undo_boundary()`. -/
def add_undo_boundary (b : Buffer) : Buffer :=
  { b with undo_tree := b.undo_tree.add_boundary }

end Buffer

/-! ## Claim C10 — `can_redo` coincides with `can_undo` -/

/-- C10: for every undo history state, `can_redo()` returns the same boolean
as `can_undo()`; in particular, immediately after committing a fresh edit with
no undo ever performed, `can_redo()` already reports `true` even though there
is nothing to re-apply. -/
theorem C10_can_redo_eq_can_undo :
    (∀ t : UndoTree, t.can_redo = t.can_undo) ∧
    (((UndoTree.new 100).record_insert 0 ['a']).add_boundary).can_redo = true :=
  ⟨fun _ => rfl, rfl⟩

/-! ## Claim C4 — mark-ring vs cursor-set position adjustment -/

/-- C4 counterexample: a mark stored at exactly the insertion point (`p = at =
5`, `len = 3`) is shifted to `8` by `MarkRing::adjust_after_insert` (which
tests `mark.0 >= insert_pos`), while `CursorSet::adjust_positions_after_insert`
(which tests `cursor.position > insert_pos`) leaves a cursor at the same
position at `5`. This falsifies the claim that the two update positions with
the same arithmetic and that positions equal to `at` do not shift. -/
theorem C4_counterexample :
    (((MarkRing.new 16).push 5).adjust_after_insert 5 3).marks = [8] ∧
    ((CursorSet.single 5).adjust_positions_after_insert 5 3).primary.position = 5 :=
  ⟨rfl, rfl⟩

/-- C4 as amended: on delete the two adjustments apply identical arithmetic
(`p ≥ end` shifts down by `end - start`, `start < p < end` clamps to `start`,
`p ≤ start` unchanged), but on insert they differ exactly at `p = at`: the
mark ring shifts positions `≥ at` by `+len` while the cursor set shifts only
positions `> at`. -/
theorem C4_amended : ∀ (p a len start stop cap idn g : Nat) (mk : Option Nat)
    (ma : Bool) (kr : KillRing),
    (((MarkRing.mk [p] cap).adjust_after_delete start stop).marks =
      [((CursorSet.mk ⟨idn, p, some g, mk, ma, kr⟩ []).adjust_positions_after_delete
          start stop).primary.position]) ∧
    (((MarkRing.mk [p] cap).adjust_after_insert a len).marks =
      [if a ≤ p then p + len else p]) ∧
    (((CursorSet.mk ⟨idn, p, some g, mk, ma, kr⟩ []).adjust_positions_after_insert
        a len).primary.position = if a < p then p + len else p) := by
  intro p a len start stop cap idn g mk ma kr
  refine ⟨?_, ?_, ?_⟩
  · simp only [MarkRing.adjust_after_delete, CursorSet.adjust_positions_after_delete,
      List.map]
    cases mk with
    | none => split <;> split <;> simp_all
    | some m =>
      by_cases h1 : stop ≤ p <;> by_cases h2 : start < p <;>
        by_cases h3 : stop ≤ m <;> by_cases h4 : start < m <;>
          simp [h1, h2, h3, h4]
  · simp [MarkRing.adjust_after_insert]
  · simp only [CursorSet.adjust_positions_after_insert]
    cases mk with
    | none => by_cases h : a < p <;> simp [h]
    | some m =>
      by_cases h : a < p <;> by_cases h2 : a < m <;> simp [h, h2]

/-! ## Claim C7 — kill ring capacity bound -/

/-- The kill-ring operations of the claim, as a reified alphabet (`yank` reads
`&self` only, so it is the identity on the ring state). -/
inductive KillRingOp where
  | push (text : List Char) (append : Bool)
  | pushPrepend (text : List Char)
  | yank
  | yankPop
  | resetYankPointer
  | setLastWasKill (b : Bool)

/-- Interpret one kill-ring operation as a state transformer. -/
def KillRingOp.apply (r : KillRing) : KillRingOp → KillRing
  | .push t a => r.push t a
  | .pushPrepend t => r.push_prepend t
  | .yank => r
  | .yankPop => r.yank_pop.2
  | .resetYankPointer => r.reset_yank_pointer
  | .setLastWasKill b => r.set_last_was_kill b

/-- C7 counterexample: a kill ring created with capacity `0` accepts a push —
`push` evicts from the back *only when at capacity and the deque is judged
against `capacity` before the front push*, and popping the back of an empty
deque is a no-op — so one entry is stored and the length `1` exceeds the
capacity `0`. -/
theorem C7_counterexample :
    (KillRing.new 0).capacity < ((KillRing.new 0).push ['a'] false).len :=
  Nat.zero_lt_one

/-- One kill-ring operation preserves the capacity field and the length bound,
for positive capacity. -/
theorem killRingOp_preserves (op : KillRingOp) (r : KillRing)
    (h0 : 1 ≤ r.capacity) (h1 : r.len ≤ r.capacity) :
    (KillRingOp.apply r op).capacity = r.capacity ∧
      (KillRingOp.apply r op).len ≤ r.capacity := by
  cases op with
  | push t a =>
    simp only [KillRingOp.apply, KillRing.push, KillRing.len] at *
    split
    · exact ⟨rfl, h1⟩
    · refine ⟨rfl, ?_⟩
      split
      · cases he : r.entries with
        | nil => simp [he] at *
        | cons x xs => simp_all
      · split
        · rename_i hcap
          have hlen : 1 ≤ r.entries.length := le_trans h0 hcap
          simp only [List.length_cons, List.length_dropLast]
          omega
        · rename_i hcap
          simp only [List.length_cons]
          omega
  | pushPrepend t =>
    simp only [KillRingOp.apply, KillRing.push_prepend, KillRing.len] at *
    split
    · exact ⟨rfl, h1⟩
    · refine ⟨rfl, ?_⟩
      split
      · cases he : r.entries with
        | nil => simp [he] at *
        | cons x xs => simp_all
      · split
        · rename_i hcap
          have hlen : 1 ≤ r.entries.length := le_trans h0 hcap
          simp only [List.length_cons, List.length_dropLast]
          omega
        · rename_i hcap
          simp only [List.length_cons]
          omega
  | yank => exact ⟨rfl, h1⟩
  | yankPop =>
    simp only [KillRingOp.apply, KillRing.yank_pop, KillRing.len] at *
    split <;> simp_all
  | resetYankPointer => exact ⟨rfl, h1⟩
  | setLastWasKill b => exact ⟨rfl, h1⟩

/-- Folding any operation sequence preserves capacity and the length bound. -/
theorem killRingOps_fold_len_le (ops : List KillRingOp) :
    ∀ (r : KillRing), 1 ≤ r.capacity → r.len ≤ r.capacity →
      (ops.foldl KillRingOp.apply r).capacity = r.capacity ∧
        (ops.foldl KillRingOp.apply r).len ≤ r.capacity := by
  induction ops with
  | nil => exact fun r _ h1 => ⟨rfl, h1⟩
  | cons op ops ih =>
    intro r h0 h1
    have hstep := killRingOp_preserves op r h0 h1
    have := ih (KillRingOp.apply r op) (hstep.1 ▸ h0) (hstep.1 ▸ hstep.2)
    exact ⟨hstep.1 ▸ this.1, hstep.1 ▸ this.2⟩

/-- C7 as amended: for every kill ring created with *positive* capacity `c`
and every sequence of push / push-prepend / yank / yank-pop /
reset-yank-pointer / set-last-was-kill operations, the number of stored
entries never exceeds `c`; and on a non-coalescing push at capacity the oldest
(back) entry is evicted before the new entry is pushed to the front.
(Capacity `0` breaches the bound — see the counterexample.) -/
theorem C7_amended (c : Nat) (ops : List KillRingOp) (r : KillRing)
    (text : List Char) (append : Bool)
    (hc : 1 ≤ c) (ht : ¬ text = [])
    (hnc : ¬ (append = true ∧ r.last_was_kill = true ∧ ¬ r.entries = []))
    (hcap : r.capacity ≤ r.entries.length) :
    (ops.foldl KillRingOp.apply (KillRing.new c)).len ≤ c ∧
      (r.push text append).entries = text :: r.entries.dropLast := by
  constructor
  · exact (killRingOps_fold_len_le ops (KillRing.new c) hc (Nat.zero_le c)).2
  · simp only [KillRing.push, List.isEmpty_iff, ht, if_false, if_neg ht]
    have hguard : (append && r.last_was_kill && !r.entries.isEmpty) = false := by
      by_cases ha : append = true
      · by_cases hl : r.last_was_kill = true
        · cases he : r.entries with
          | nil => simp [he]
          | cons x xs => exact absurd ⟨ha, hl, by simp [he]⟩ hnc
        · simp only [Bool.not_eq_true] at hl
          simp [hl]
      · simp only [Bool.not_eq_true] at ha
        simp [ha]
    simp [hguard, hcap]

/-- C7 witness: the amended theorem applied at capacity `2`, the operation
sequence of the spec's capacity test, and a concrete at-capacity ring. -/
theorem C7_witness :
    ([KillRingOp.push ['f'] false, KillRingOp.setLastWasKill false,
        KillRingOp.push ['s'] false, KillRingOp.setLastWasKill false,
        KillRingOp.push ['t'] false].foldl KillRingOp.apply (KillRing.new 2)).len ≤ 2 ∧
      ((KillRing.mk [['s'], ['f']] 2 0 false).push ['t'] false).entries =
        ['t'] :: [['s'], ['f']].dropLast :=
  C7_amended 2 _ (KillRing.mk [['s'], ['f']] 2 0 false) ['t'] false
    (by decide) (by decide) (by decide) (by decide)

/-! ## Claim C5 — read-only buffers short-circuit every mutation -/

/-- C5: on a read-only buffer each mutation short-circuits without an error
channel (the return types carry no error at all), leaving the buffer — rope
text, undo history, cursor set, mark ring, modified flag — untouched;
`delete_region` returns the empty string and `delete_regions` the empty
list (`delete_char_forward` / `delete_char_backward` return no deleted
char). -/
theorem C5_read_only_noops (b : Buffer) (cursors : CursorSet) (s : List Char)
    (texts : List (Nat × List Char)) (start stop : Nat)
    (regions : List (Nat × Nat × Nat)) (h : b.read_only = true) :
    b.insert_string cursors s = (b, cursors) ∧
    b.insert_at_cursors cursors texts = (b, cursors) ∧
    b.delete_char_forward cursors = (b, cursors, none) ∧
    b.delete_char_backward cursors = (b, cursors, none) ∧
    b.delete_region cursors start stop = (b, cursors, []) ∧
    b.delete_regions cursors regions = (b, cursors, []) := by
  refine ⟨?_, ?_, ?_, ?_, ?_, ?_⟩ <;>
    simp [Buffer.insert_string, Buffer.insert_at_cursors, Buffer.delete_char_forward,
      Buffer.delete_char_backward, Buffer.delete_region, Buffer.delete_regions, h]

/-- C5 witness: the theorem applied to a concrete read-only buffer holding
`"hi"` with a default cursor set and concrete arguments. -/
theorem C5_witness :
    ({ Buffer.from_string 7 "w" ['h', 'i'] with read_only := true }.delete_region
        CursorSet.new 0 2) =
      ({ Buffer.from_string 7 "w" ['h', 'i'] with read_only := true }, CursorSet.new, []) :=
  (C5_read_only_noops { Buffer.from_string 7 "w" ['h', 'i'] with read_only := true }
    CursorSet.new ['x'] [(0, ['y'])] 0 2 [(0, 0, 2)] rfl).2.2.2.2.1

/-! ## Claim C1 — undo-then-redo does not restore -/

/-- The concrete history of the claim: a fresh buffer into which `"hello"` has
been inserted (one committed undo entry with a cursor snapshot, no pending
edits). -/
def c1Step1 : Buffer × CursorSet :=
  (Buffer.new 1 "test").insert_string CursorSet.new "hello".toList

/-- `undo()` on that buffer. -/
def c1Undo : Buffer × CursorSet × Bool :=
  c1Step1.1.undo c1Step1.2

/-- `redo()` immediately after, with no intervening edit. -/
def c1Redo : Buffer × CursorSet × Bool :=
  c1Undo.1.redo c1Undo.2.1

/-- C1 counterexample: just before the undo the text is `"hello"` with the
primary cursor at `5`; `undo()` rewinds to `""` / `0`; but the immediate
`redo()` — `UndoTree::redo` simply calls `undo()`, whose effective index is
the stored `undo_index = 0`, not the end of the (now longer) entry vector —
returns `Nothing` (`false`), leaving text `""` and cursor `0` instead of
restoring `"hello"` and `5`. -/
theorem C1_counterexample :
    c1Step1.1.text = "hello".toList ∧ c1Step1.2.primary.position = 5 ∧
    c1Undo.2.2 = true ∧ c1Undo.1.text = [] ∧ c1Undo.2.1.primary.position = 0 ∧
    c1Redo.2.2 = false ∧ c1Redo.1.text = [] ∧ c1Redo.2.1.primary.position = 0 ∧
    ¬ c1Redo.1.text = c1Step1.1.text ∧
    ¬ c1Redo.2.1.primary.position = c1Step1.2.primary.position := by
  refine ⟨rfl, rfl, rfl, rfl, rfl, rfl, rfl, rfl, ?_, ?_⟩ <;> decide

/-- C1 as amended: `redo()` is the identical call to `undo()` (at the undo
tree and at the buffer level), so `undo()` followed by `redo()` with no
intervening edit continues the backward traversal instead of re-applying the
undone edits; with a single committed entry the redo reports `false` and
leaves text and primary cursor at their post-undo values. Re-application
occurs only after a non-undo edit clears the undo index. -/
theorem C1_amended :
    (∀ t : UndoTree, t.redo = t.undo) ∧
    (∀ (b : Buffer) (cs : CursorSet), b.redo cs = b.undo cs) ∧
    (c1Redo.2.2 = false ∧ c1Redo.1.text = c1Undo.1.text ∧
      c1Redo.2.1 = c1Undo.2.1) :=
  ⟨fun _ => rfl, fun _ _ => rfl, rfl, rfl, rfl⟩

/-! ## Claim C3 — `insert_string` splices at every cursor position -/

/-- Modelled from the spec (P3 / §4.4): the final rope is "the original with
`s` spliced at each `p_i` processed in descending order", "each position is
clamped to the rope's char length before insertion" — a plain fold over
`positions_descending` against which `insert_string` is compared. -/
def spliceDescending (t0 : List Char) (positions : List Nat) (s : List Char) :
    List Char :=
  positions.foldl (fun t p => ropeInsert t (min p t.length) s) t0

theorem ropeInsert_nil_text (t : List Char) (i : Nat) : ropeInsert t i [] = t := by
  simp [ropeInsert]

theorem spliceDescending_nil (positions : List Nat) :
    ∀ t : List Char, spliceDescending t positions [] = t := by
  induction positions with
  | nil => intro t; rfl
  | cons p ps ih =>
    intro t
    show spliceDescending (ropeInsert t (min p t.length) []) ps [] = t
    rw [ropeInsert_nil_text, ih]

/-- The text component of `insert_string`'s per-position fold is exactly the
spec's splice fold (the interleaved undo recording and cursor adjustment do
not feed back into the rope). -/
theorem insertStringFold_text (s : List Char) (cc : Nat) :
    ∀ (ps : List Nat) (b : Buffer) (cs : CursorSet),
      ((ps.foldl (Buffer.insertStringStep s cc) (b, cs)).1).text =
        spliceDescending b.text ps s := by
  intro ps
  induction ps with
  | nil => intro b cs; rfl
  | cons p ps ih =>
    intro b cs
    show ((ps.foldl (Buffer.insertStringStep s cc)
        (Buffer.insertStringStep s cc (b, cs) p)).1).text = _
    rw [show Buffer.insertStringStep s cc (b, cs) p =
        ({ { b with undo_tree := b.undo_tree.record_insert (min p b.text.length) s } with
            text := ropeInsert b.text (min p b.text.length) s },
          cs.adjust_positions_after_insert (min p b.text.length) cc) from rfl]
    rw [ih]
    rfl

/-- C3: for every non-read-only buffer, cursor set and string (empty strings
insert nothing on both sides), the rope after `insert_string` equals the
original rope with `s` spliced at each cursor position, positions processed in
descending order and each clamped to the current rope length. -/
theorem C3_insert_string_splices (b : Buffer) (cursors : CursorSet)
    (s : List Char) (h : b.read_only = false) :
    (b.insert_string cursors s).1.text =
      spliceDescending b.text cursors.positions_descending s := by
  by_cases hs : s.isEmpty
  · have hnil : s = [] := by simpa using hs
    subst hnil
    rw [Buffer.insert_string]
    simp [h, spliceDescending_nil]
  · rw [Buffer.insert_string]
    rw [if_neg (by simp [h, hs])]
    cases hnl : s.contains '\n' <;>
      simp only [hnl, Bool.false_eq_true, if_false, if_true, reduceIte] <;>
      exact insertStringFold_text s s.length cursors.positions_descending _ cursors

/-- C3 witness: the theorem applied to the spec's multi-cursor scenario —
`"aa bb cc"` with cursors at `0`, `3`, `6` and insertion of `"X"` — whose
positions-descending splice gives `"Xaa Xbb Xcc"`. -/
theorem C3_witness :
    ((Buffer.from_string 3 "t" "aa bb cc".toList).insert_string
        ⟨{ Cursor.default with position := 0 },
          [{ Cursor.default with id := 1, position := 3 },
            { Cursor.default with id := 2, position := 6 }]⟩ ['X']).1.text =
      "Xaa Xbb Xcc".toList := by
  rw [C3_insert_string_splices _ _ _ rfl]
  decide

/-! ## Minibuffer — `src/state/minibuffer.rs`

`cursor_pos` is `usize` and the operations call the *byte-indexed*
`String::insert` / `String::remove` / `String::len`; the content is a
`List Char` and byte positions are interpreted through `byteLen` /
`boundaryCharIdx`. `String::insert` and `String::remove` panic on an index
that is not a char boundary (or out of range), modelled as `none`. -/

/-- Char index corresponding to byte index `b` of a UTF-8 text, when `b` lies
on a char boundary; `none` when `b` falls inside a character's encoding or
past the end. -/
def boundaryCharIdx : List Char → Nat → Option Nat
  | _, 0 => some 0
  | [], _ + 1 => none
  | c :: rest, b + 1 =>
    if b + 1 < utf8Len c then none
    else (boundaryCharIdx rest (b + 1 - utf8Len c)).map (· + 1)

inductive MinibufferState where
  | inactive
  | prompt
  | reading
  deriving Repr, DecidableEq

structure Minibuffer where
  state : MinibufferState
  prompt : String
  content : List Char
  cursor_pos : Nat
  callback : Option String
  history : List (List Char)
  history_index : Option Nat
  deriving Repr, DecidableEq

namespace Minibuffer

/-- `Minibuffer::new()`. -/
def new : Minibuffer :=
  ⟨.inactive, "", [], 0, none, [], none⟩

/-- `Minibuffer::insert_char(c)`: `content.insert(cursor_pos, c)` is
byte-indexed and panics (`none`) off a char boundary. -/
def insert_char (mb : Minibuffer) (c : Char) : Option Minibuffer :=
  if mb.cursor_pos ≤ byteLen mb.content then
    match boundaryCharIdx mb.content mb.cursor_pos with
    | some ci =>
      some { mb with
        content := ropeInsert mb.content ci [c]
        cursor_pos := mb.cursor_pos + 1 }
    | none => none
  else some mb

/-- `Minibuffer::delete_backward()`: decrement `cursor_pos`, then
`content.remove(cursor_pos)` (byte-indexed, panics off a boundary or at/past
the end). -/
def delete_backward (mb : Minibuffer) : Option Minibuffer :=
  if 0 < mb.cursor_pos then
    let p := mb.cursor_pos - 1
    if p < byteLen mb.content then
      match boundaryCharIdx mb.content p with
      | some ci =>
        some { mb with content := ropeRemove mb.content ci (ci + 1), cursor_pos := p }
      | none => none
    else none
  else some mb

/-- `Minibuffer::delete_forward()`: `content.remove(cursor_pos)` when the
cursor is before the end. -/
def delete_forward (mb : Minibuffer) : Option Minibuffer :=
  if mb.cursor_pos < byteLen mb.content then
    match boundaryCharIdx mb.content mb.cursor_pos with
    | some ci => some { mb with content := ropeRemove mb.content ci (ci + 1) }
    | none => none
  else some mb

/-- `Minibuffer::move_forward()`: a *byte* increment. -/
def move_forward (mb : Minibuffer) : Minibuffer :=
  if mb.cursor_pos < byteLen mb.content then { mb with cursor_pos := mb.cursor_pos + 1 }
  else mb

/-- `Minibuffer::move_backward()`. -/
def move_backward (mb : Minibuffer) : Minibuffer :=
  if 0 < mb.cursor_pos then { mb with cursor_pos := mb.cursor_pos - 1 } else mb

/-- `Minibuffer::move_to_start()`. -/
def move_to_start (mb : Minibuffer) : Minibuffer :=
  { mb with cursor_pos := 0 }

/-- `Minibuffer::move_to_end()`: the content's *byte* length. -/
def move_to_end (mb : Minibuffer) : Minibuffer :=
  { mb with cursor_pos := byteLen mb.content }

end Minibuffer

/-! ## Claim C9 — minibuffer cursor maintenance under Unicode input -/

/-- C9 exhibits the bug: `cursor_pos` is maintained in *bytes* against
byte-indexed `String` operations, while the spec declares it a char index and
the operations total. Inserting `'é'` (2 UTF-8 bytes) advances `cursor_pos` by
only `1`, leaving it inside the character's encoding, so the next
`insert_char` calls `String::insert` off a char boundary and panics
(`= none`); and after `move_to_end` the cursor is `2` while the content holds
a single char, breaching `cursor_pos ≤ number of chars`. -/
theorem C9_byte_cursor_bug :
    ((Minibuffer.new.insert_char 'é').bind (fun mb => mb.insert_char 'a')) = none ∧
    (Minibuffer.new.insert_char 'é').map (fun mb => mb.move_to_end.cursor_pos) =
      some 2 ∧
    (Minibuffer.new.insert_char 'é').map (fun mb => mb.content.length) = some 1 := by
  refine ⟨?_, ?_, ?_⟩ <;> decide

/-! ## Key events, keymaps, resolver — `src/keybinding/key.rs`,
`keymap.rs`, `resolver.rs`

`Modifiers` is a `bitflags` byte with four used bits, modelled as four
booleans (`sup` is the SUPER bit). The keymap `HashMap` is modelled as an
association list with first-match lookup (insertion keeps keys unique). -/

inductive Key where
  | char (c : Char)
  | f (n : Nat)
  | backspace
  | tab
  | enter
  | escape
  | up
  | down
  | left
  | right
  | home
  | endKey
  | pageUp
  | pageDown
  | insertKey
  | deleteKey
  deriving Repr, DecidableEq

structure Modifiers where
  ctrl : Bool
  meta : Bool
  shift : Bool
  sup : Bool
  deriving Repr, DecidableEq

/-- `Modifiers::NONE`. -/
def Modifiers.NONE : Modifiers :=
  ⟨false, false, false, false⟩

structure KeyEvent where
  key : Key
  modifiers : Modifiers
  deriving Repr, DecidableEq

/-- The `Display` rendering of a `Key`. -/
def keyToString : Key → String
  | .char c => String.singleton c
  | .f n => "<f" ++ toString n ++ ">"
  | .backspace => "<backspace>"
  | .tab => "<tab>"
  | .enter => "<return>"
  | .escape => "<escape>"
  | .up => "<up>"
  | .down => "<down>"
  | .left => "<left>"
  | .right => "<right>"
  | .home => "<home>"
  | .endKey => "<end>"
  | .pageUp => "<prior>"
  | .pageDown => "<next>"
  | .insertKey => "<insert>"
  | .deleteKey => "<delete>"

/-- The `Display` rendering of a `KeyEvent`: `C-`, `M-`, `s-`, `S-` markers in
that order, then the key. -/
def keyEventToString (e : KeyEvent) : String :=
  (if e.modifiers.ctrl then "C-" else "") ++
  (if e.modifiers.meta then "M-" else "") ++
  (if e.modifiers.sup then "s-" else "") ++
  (if e.modifiers.shift then "S-" else "") ++
  keyToString e.key

inductive KeyBinding where
  | command (name : String)
  | pfx (map : List (KeyEvent × KeyBinding))
  | unbound

/-- A keymap: the binding table of `KeyMap` (a `HashMap`), with sub-keymaps
nested inside `pfx` bindings. -/
abbrev KeyMap := List (KeyEvent × KeyBinding)

/-- `KeyMap::get(key)`. -/
def kmGet : KeyMap → KeyEvent → Option KeyBinding
  | [], _ => none
  | (k', b) :: rest, k => if k' = k then some b else kmGet rest k

/-- Outcome of the resolver's walk over the pending keys (`resolve`'s `for`
loop): a command bound at the last key, a sub-keymap at the last key, an
`Unbound`/missing binding at some step, or loop fallthrough (only reachable on
an empty pending list, which `resolve` never produces). -/
inductive WalkOut where
  | complete (cmd : String)
  | pfxEnd
  | unboundHit
  | fallthrough
  deriving Repr, DecidableEq

/-- The resolver's walk: at a non-final key a `Command` binding merely
continues in the same map (the loop neither returns nor descends), a `Prefix`
binding descends, and `Unbound`/missing aborts the walk. -/
def walk (m : KeyMap) : List KeyEvent → WalkOut
  | [] => .fallthrough
  | [k] =>
    match kmGet m k with
    | some (.command c) => .complete c
    | some (.pfx _) => .pfxEnd
    | some .unbound => .unboundHit
    | none => .unboundHit
  | k :: k2 :: rest =>
    match kmGet m k with
    | some (.command _) => walk m (k2 :: rest)
    | some (.pfx sub) => walk sub (k2 :: rest)
    | some .unbound => .unboundHit
    | none => .unboundHit

inductive KeyResolution where
  | complete (cmd : String)
  | pfxPending (display : String)
  | unbound (keys : List KeyEvent)
  | selfInsert (c : Char)
  deriving Repr, DecidableEq

structure KeyResolver where
  pending_keys : List KeyEvent
  pfx_display : String
  deriving Repr, DecidableEq

/-- `update_prefix_display()`: the pending keys rendered space-separated with
a trailing `-`. -/
def updatePfxDisplay (pending : List KeyEvent) : String :=
  String.intercalate " " (pending.map keyEventToString) ++ "-"

/-- `KeyResolver::resolve(key, keymap)`: push the key, walk, and translate the
walk's outcome; on an unbound hit, a lone plain printable char self-inserts,
anything else reports `Unbound` with all keys so far; pending state is kept
only for a `Prefix` outcome. -/
def KeyResolver.resolve (r : KeyResolver) (k : KeyEvent) (m : KeyMap) :
    KeyResolution × KeyResolver :=
  let pending := r.pending_keys ++ [k]
  match walk m pending with
  | .complete cmd => (.complete cmd, ⟨[], ""⟩)
  | .pfxEnd => (.pfxPending (updatePfxDisplay pending), ⟨pending, updatePfxDisplay pending⟩)
  | .fallthrough =>
    (.pfxPending (updatePfxDisplay pending), ⟨pending, updatePfxDisplay pending⟩)
  | .unboundHit =>
    if r.pending_keys.isEmpty then
      match k.key with
      | .char c =>
        if k.modifiers = Modifiers.NONE ∧ ¬ rustIsControl c = true then
          (.selfInsert c, ⟨[], ""⟩)
        else (.unbound pending, ⟨[], ""⟩)
      | _ => (.unbound pending, ⟨[], ""⟩)
    else (.unbound pending, ⟨[], ""⟩)

/-! ## Claim C8 — unbound resolution: self-insert exactly for a lone plain
printable char -/

/-- C8: whenever the resolver's walk over the pending keys (with the new key
appended) hits `Unbound` or a missing binding, the resolution is
`SelfInsert c` exactly when the pending sequence is that single key, the key
is `Char c` with empty modifiers, and `c` is not a control character; every
other unbound case yields `Unbound` carrying all keys so far; and in both
cases the resolver's pending buffer is cleared. -/
theorem C8_resolver_unbound (r : KeyResolver) (k : KeyEvent) (m : KeyMap)
    (h : walk m (r.pending_keys ++ [k]) = WalkOut.unboundHit) :
    (∀ c : Char, (r.resolve k m).1 = .selfInsert c ↔
      (r.pending_keys = [] ∧ k.key = .char c ∧ k.modifiers = Modifiers.NONE ∧
        rustIsControl c = false)) ∧
    ((r.resolve k m).1 = .unbound (r.pending_keys ++ [k]) ∨
      ∃ c, (r.resolve k m).1 = .selfInsert c) ∧
    (r.resolve k m).2.pending_keys = [] := by
  obtain ⟨kk, km⟩ := k
  unfold KeyResolver.resolve
  simp only [h]
  by_cases hp : r.pending_keys = []
  · cases kk with
    | char c =>
      by_cases hm : km = Modifiers.NONE
      · by_cases hc : rustIsControl c = true
        · simp [hp, hm, hc]
        · simp only [Bool.not_eq_true] at hc
          simp [hp, hm, hc]
      · simp [hp, hm]
    | f n => simp [hp]
    | backspace => simp [hp]
    | tab => simp [hp]
    | enter => simp [hp]
    | escape => simp [hp]
    | up => simp [hp]
    | down => simp [hp]
    | left => simp [hp]
    | right => simp [hp]
    | home => simp [hp]
    | endKey => simp [hp]
    | pageUp => simp [hp]
    | pageDown => simp [hp]
    | insertKey => simp [hp]
    | deleteKey => simp [hp]
  · have hne : ¬ r.pending_keys.isEmpty = true := by
      simpa [List.isEmpty_iff] using hp
    simp [hne, hp]

/-- C8 witness: an empty keymap, an idle resolver, and the plain key `q` —
the walk hits a missing binding and the theorem yields `SelfInsert 'q'` with
the pending buffer cleared. -/
theorem C8_witness :
    (KeyResolver.resolve ⟨[], ""⟩ ⟨Key.char 'q', Modifiers.NONE⟩ []).1 =
        KeyResolution.selfInsert 'q' ∧
      (KeyResolver.resolve ⟨[], ""⟩ ⟨Key.char 'q', Modifiers.NONE⟩ []).2.pending_keys = [] :=
  ⟨((C8_resolver_unbound ⟨[], ""⟩ ⟨Key.char 'q', Modifiers.NONE⟩ [] rfl).1 'q').mpr
      ⟨rfl, rfl, rfl, by decide⟩,
    (C8_resolver_unbound ⟨[], ""⟩ ⟨Key.char 'q', Modifiers.NONE⟩ [] rfl).2.2⟩

/-! ## Command layer — `src/commands/registry.rs`, `src/commands/kill_yank.rs`

Only the state the `yank-pop` command touches is modelled: the current window
(`windows.current()`), the buffer list, and the one-shot message. Cursor kill
rings are per-cursor as `kill_yank.rs` assumes. `PfxArg` models `PrefixArg`. -/

inductive PfxArg where
  | none
  | universal (n : Int)
  | negative
  | raw (n : Int)
  deriving Repr, DecidableEq

structure CommandContext where
  pfx_arg : PfxArg
  last_command : Option String
  deriving Repr, DecidableEq

inductive CommandError where
  | notFound (name : String)
  | readOnly
  | noMark
  | noMatch
  | cancelled
  | io (cause : String)
  | other (msg : String)
  deriving Repr, DecidableEq

abbrev CommandResult := Except CommandError Unit

structure YpWindow where
  buffer_id : Nat
  cursors : CursorSet
  deriving Repr, DecidableEq

structure YpState where
  window : Option YpWindow
  buffers : List Buffer
  message : Option String
  deriving Repr, DecidableEq

/-- `buffers.get_mut(id)` write-back: replace the first buffer bearing the id. -/
def setBuffer : List Buffer → Nat → Buffer → List Buffer
  | [], _, _ => []
  | b :: rest, i, nb => if b.id = i then nb :: rest else b :: setBuffer rest i nb

/-- Modelled from the spec: `CursorSet::get_by_id_mut` (used by
`kill_yank.rs`, missing from `src/core/cursor.rs`) mutating the first cursor
bearing the id — here specialised to the `set_mark` write the `yank-pop`
command performs. -/
def setMarkFirstAux (idn pos : Nat) : List Cursor → List Cursor
  | [] => []
  | c :: rest => if c.id = idn then c.set_mark pos :: rest else c :: setMarkFirstAux idn pos rest

/-- See `setMarkFirstAux`; the primary cursor is checked first. -/
def CursorSet.setMarkById (s : CursorSet) (idn pos : Nat) : CursorSet :=
  if s.primary.id = idn then ⟨s.primary.set_mark pos, s.secondary⟩
  else ⟨s.primary, setMarkFirstAux idn pos s.secondary⟩

/-- One cursor's `cursor.kill_ring.yank_pop()` step of the command's
`filter_map` pass: the mutated cursor plus the collected
`(id, position, text)` when the ring produced a text. -/
def cursorYankPop (c : Cursor) : Cursor × Option (Nat × Nat × List Char) :=
  let r := c.kill_ring.yank_pop
  ({ c with kill_ring := r.2 }, r.1.map fun s => (c.id, c.position, s))

/-- The command's `all_cursors_mut().filter_map(...)` pass over the whole
cursor set (primary first). -/
def cursorsYankPop (s : CursorSet) : CursorSet × List (Nat × Nat × List Char) :=
  let p := cursorYankPop s.primary
  let rest := s.secondary.map cursorYankPop
  (⟨p.1, rest.map (·.1)⟩, p.2.toList ++ rest.filterMap (·.2))

/-- `yank_pop` of `src/commands/kill_yank.rs`: guard on `last_command`, then
delete each cursor's mark/point region, rotate each cursor's kill ring,
insert the yielded texts, and re-set the marks at the pre-insert positions. -/
def yank_pop_cmd (st : YpState) (ctx : CommandContext) : YpState × CommandResult :=
  if ¬ ctx.last_command = some "yank" ∧ ¬ ctx.last_command = some "yank-pop" then
    ({ st with message := some "Previous command was not a yank" }, .ok ())
  else
    match st.window with
    | none => (st, .ok ())
    | some w =>
      let buffer_id := w.buffer_id
      let read_only :=
        ((st.buffers.find? (fun b => b.id = buffer_id)).map (·.read_only)).getD false
      if read_only then (st, .error .readOnly)
      else
        let dRegions : List (Nat × Nat × Nat) :=
          w.cursors.all_cursors.filterMap fun c =>
            c.mark.map fun mark =>
              if mark < c.position then (c.id, mark, c.position)
              else (c.id, c.position, mark)
        let afterDel : YpWindow × List Buffer :=
          match st.buffers.find? (fun b => b.id = buffer_id) with
          | some buffer =>
            let r := buffer.delete_regions w.cursors dRegions
            ({ w with cursors := r.2.1 }, setBuffer st.buffers buffer_id r.1)
          | none => (w, st.buffers)
        let yp := cursorsYankPop afterDel.1.cursors
        let w2 := { afterDel.1 with cursors := yp.1 }
        if yp.2.isEmpty then
          ({ st with window := some w2, buffers := afterDel.2 }, .ok ())
        else
          let mark_positions := yp.2.map fun t => (t.1, t.2.1)
          let insert_ops := yp.2.map fun t => (t.1, t.2.2)
          let afterIns : YpWindow × List Buffer :=
            match afterDel.2.find? (fun b => b.id = buffer_id) with
            | some buffer =>
              let r := buffer.insert_at_cursors w2.cursors insert_ops
              ({ w2 with cursors := r.2 }, setBuffer afterDel.2 buffer_id r.1)
            | none => (w2, afterDel.2)
          let finalCursors :=
            mark_positions.foldl (fun cs pr => CursorSet.setMarkById cs pr.1 pr.2)
              afterIns.1.cursors
          let w3 := { afterIns.1 with cursors := finalCursors }
          ({ st with window := some w3, buffers := afterIns.2 }, .ok ())

/-! ## Claim C6 — yank-pop cycling and its command guard -/

/-- `n` consecutive `yank_pop` calls (state only). -/
def yankPopN (r : KillRing) : Nat → KillRing
  | 0 => r
  | n + 1 => yankPopN r.yank_pop.2 n

theorem yank_pop_preserves (r : KillRing) :
    r.yank_pop.2.entries = r.entries ∧ r.yank_pop.2.capacity = r.capacity ∧
      r.yank_pop.2.last_was_kill = r.last_was_kill := by
  unfold KillRing.yank_pop
  split <;> exact ⟨rfl, rfl, rfl⟩

theorem yankPopN_fields (n : Nat) :
    ∀ r : KillRing, (yankPopN r n).entries = r.entries ∧
      (yankPopN r n).capacity = r.capacity ∧
      (yankPopN r n).last_was_kill = r.last_was_kill := by
  induction n with
  | zero => exact fun r => ⟨rfl, rfl, rfl⟩
  | succ n ih =>
    intro r
    have h1 := yank_pop_preserves r
    have h2 := ih r.yank_pop.2
    exact ⟨h2.1.trans h1.1, h2.2.1.trans h1.2.1, h2.2.2.trans h1.2.2⟩

theorem yankPopN_pointer (n : Nat) :
    ∀ r : KillRing, ¬ r.entries = [] →
      (yankPopN r (n + 1)).yank_pointer = (r.yank_pointer + (n + 1)) % r.entries.length := by
  induction n with
  | zero =>
    intro r hne
    show (r.yank_pop.2).yank_pointer = _
    unfold KillRing.yank_pop
    rw [if_neg (by simpa [List.isEmpty_iff] using hne)]
  | succ n ih =>
    intro r hne
    show (yankPopN r.yank_pop.2 (n + 1)).yank_pointer = _
    have hpres := yank_pop_preserves r
    have hne2 : ¬ r.yank_pop.2.entries = [] := by rw [hpres.1]; exact hne
    rw [ih r.yank_pop.2 hne2, hpres.1]
    have hstep : r.yank_pop.2.yank_pointer = (r.yank_pointer + 1) % r.entries.length := by
      unfold KillRing.yank_pop
      rw [if_neg (by simpa [List.isEmpty_iff] using hne)]
    rw [hstep, Nat.mod_add_mod]
    ring_nf

/-- Field-wise equality of kill rings. -/
theorem KillRing.ext' (a b : KillRing) (h1 : a.entries = b.entries)
    (h2 : a.capacity = b.capacity) (h3 : a.yank_pointer = b.yank_pointer)
    (h4 : a.last_was_kill = b.last_was_kill) : a = b := by
  cases a; cases b; simp_all

/-- After `len - 1` calls the next advance lands back on the original
pointer. -/
theorem yankPopN_last_pointer (r : KillRing) (hne : ¬ r.entries = [])
    (hp : r.yank_pointer < r.entries.length) :
    ((yankPopN r (r.entries.length - 1)).yank_pointer + 1) % r.entries.length =
      r.yank_pointer := by
  cases hm : r.entries.length - 1 with
  | zero =>
    have hlen1 : r.entries.length = 1 := by
      cases he : r.entries with
      | nil => exact absurd he hne
      | cons x xs =>
        rw [he] at hm
        simp only [List.length_cons] at hm ⊢
        omega
    show (r.yank_pointer + 1) % r.entries.length = r.yank_pointer
    rw [hlen1] at hp ⊢
    omega
  | succ m =>
    rw [yankPopN_pointer m r hne, Nat.mod_add_mod]
    have hN : r.entries.length = m + 2 := by
      have : 1 ≤ r.entries.length := by
        cases he : r.entries with
        | nil => exact absurd he hne
        | cons x xs => simp [he]
      omega
    have h1 : r.yank_pointer + (m + 1) + 1 = r.yank_pointer + (m + 2) := by ring
    rw [h1, hN, Nat.add_mod_right, Nat.mod_eq_of_lt (by omega)]

/-- C6: on a nonempty kill ring whose pointer is in range, `yank_pop` advances
the pointer by one modulo the length and returns the entry at the new pointer,
`ring.len` consecutive calls restore the entire ring state and the last of
them returns the starting entry (period `len`); and when `last_command` is
neither `yank` nor `yank-pop` the `yank-pop` command only surfaces
"Previous command was not a yank" — the state (every ring included) is
otherwise untouched and no error is raised. -/
theorem C6_yank_pop_cycles (ring : KillRing) (st : YpState) (ctx : CommandContext)
    (hne : ¬ ring.entries = [])
    (hp : ring.yank_pointer < ring.entries.length)
    (hg1 : ¬ ctx.last_command = some "yank")
    (hg2 : ¬ ctx.last_command = some "yank-pop") :
    (ring.yank_pop.2.yank_pointer = (ring.yank_pointer + 1) % ring.entries.length ∧
      ring.yank_pop.1 = ring.entries.get? ((ring.yank_pointer + 1) % ring.entries.length) ∧
      ring.yank_pop.2.entries = ring.entries) ∧
    (yankPopN ring ring.entries.length = ring ∧
      (yankPopN ring (ring.entries.length - 1)).yank_pop.1 =
        ring.entries.get? ring.yank_pointer) ∧
    yank_pop_cmd st ctx =
      ({ st with message := some "Previous command was not a yank" }, .ok ()) := by
  have hlen : 1 ≤ ring.entries.length := by
    cases he : ring.entries with
    | nil => exact absurd he hne
    | cons x xs => simp [he]
  have hstep : ∀ r : KillRing, ¬ r.entries = [] →
      r.yank_pop = (r.entries.get? ((r.yank_pointer + 1) % r.entries.length),
        { r with yank_pointer := (r.yank_pointer + 1) % r.entries.length }) := by
    intro r hr
    unfold KillRing.yank_pop
    rw [if_neg (by simpa [List.isEmpty_iff] using hr)]
  refine ⟨?_, ⟨?_, ?_⟩, ?_⟩
  · rw [hstep ring hne]
    exact ⟨rfl, rfl, rfl⟩
  · have hfields := yankPopN_fields ring.entries.length ring
    have hptr2 : (yankPopN ring ring.entries.length).yank_pointer = ring.yank_pointer := by
      cases hlm : ring.entries.length with
      | zero => omega
      | succ n =>
        have hn : n = ring.entries.length - 1 := by omega
        rw [hn, yankPopN_pointer (ring.entries.length - 1) ring hne,
          Nat.sub_add_cancel hlen, Nat.add_mod_right, Nat.mod_eq_of_lt hp]
    exact KillRing.ext' _ _ hfields.1 hfields.2.1 hptr2 hfields.2.2
  · have hfields := yankPopN_fields (ring.entries.length - 1) ring
    have hne2 : ¬ (yankPopN ring (ring.entries.length - 1)).entries = [] := by
      rw [hfields.1]; exact hne
    rw [hstep _ hne2]
    show (yankPopN ring (ring.entries.length - 1)).entries.get?
        (((yankPopN ring (ring.entries.length - 1)).yank_pointer + 1) %
          (yankPopN ring (ring.entries.length - 1)).entries.length) = _
    rw [hfields.1, yankPopN_last_pointer ring hne hp]
  · unfold yank_pop_cmd
    rw [if_pos ⟨hg1, hg2⟩]

/-- C6 witness: the spec's yank-pop scenario ring (`["C","B","A"]` newest
first, pointer `0`) and a guard-failing context (`last_command =
forward-char`): the theorem's conclusions evaluated there. -/
theorem C6_witness :
    ((KillRing.mk [['C'], ['B'], ['A']] 60 0 false).yank_pop.1 = some ['B'] ∧
      yankPopN (KillRing.mk [['C'], ['B'], ['A']] 60 0 false) 3 =
        KillRing.mk [['C'], ['B'], ['A']] 60 0 false) ∧
    yank_pop_cmd ⟨none, [], none⟩ ⟨.none, some "forward-char"⟩ =
      (⟨none, [], some "Previous command was not a yank"⟩, .ok ()) := by
  have h := C6_yank_pop_cycles (KillRing.mk [['C'], ['B'], ['A']] 60 0 false)
    ⟨none, [], none⟩ ⟨.none, some "forward-char"⟩
    (by decide) (by decide) (by decide) (by decide)
  exact ⟨⟨by rw [h.1.2.1]; decide, h.2.1.1⟩, h.2.2⟩

/-! ## Claim C2 — one undo reverses a coalesced single-char insertion run -/

/-- A buffer that already holds one committed, coalescible insert entry:
fresh buffer, `insert_string "a"`, then a post-command undo boundary. -/
def c2Pre : Buffer × CursorSet :=
  let r := (Buffer.new 2 "t").insert_string CursorSet.new ['a']
  (r.1.add_undo_boundary, r.2)

/-- The claim's sequence on that buffer: a single insertion of `'b'`. -/
def c2Seq : Buffer × CursorSet :=
  c2Pre.1.insert_string c2Pre.2 ['b']

/-- One `undo()` after the sequence. -/
def c2Undo : Buffer × CursorSet × Bool :=
  c2Seq.1.undo c2Seq.2

/-- C2 counterexample: on a buffer whose history already ends in a
coalescible insert (text `"a"`, one committed `Insert(0,"a")` entry behind a
boundary), the claim's sequence is the single insertion of `'b'` (`k = 1`,
not whitespace or punctuation, single cursor). Batch-to-batch coalescing
ignores undo boundaries and merges the new insert into the *pre-existing*
entry, so the one undo removes `"ab"` entirely: the text `"a"` from before
the sequence is not restored. -/
theorem C2_counterexample :
    c2Pre.1.text = ['a'] ∧ c2Seq.1.text = ['a', 'b'] ∧ c2Undo.2.2 = true ∧
    c2Undo.1.text = [] ∧ ¬ c2Undo.1.text = c2Pre.1.text := by
  refine ⟨rfl, rfl, rfl, rfl, ?_⟩
  decide

theorem ropeInsert_length (t s : List Char) (p : Nat) (hp : p ≤ t.length) :
    (ropeInsert t p s).length = t.length + s.length := by
  simp [ropeInsert]
  omega

theorem take_ropeInsert (t s : List Char) (p : Nat) (hp : p ≤ t.length) :
    (ropeInsert t p s).take (p + s.length) = t.take p ++ s := by
  have hlen : (t.take p).length = p := by simp [hp]
  rw [ropeInsert, List.append_assoc, List.take_append_eq_append_take, hlen,
    List.take_of_length_le (by omega), List.take_append_eq_append_take]
  simp

theorem drop_ropeInsert (t s : List Char) (p : Nat) (hp : p ≤ t.length) :
    (ropeInsert t p s).drop (p + s.length) = t.drop p := by
  have hlen : (t.take p).length = p := by simp [hp]
  rw [ropeInsert, List.append_assoc, List.drop_append_eq_append_drop, hlen,
    List.drop_eq_nil_of_le (by omega), List.drop_append_eq_append_drop]
  simp

theorem ropeInsert_snoc (t s : List Char) (c : Char) (p : Nat) (hp : p ≤ t.length) :
    ropeInsert (ropeInsert t p s) (p + s.length) [c] = ropeInsert t p (s ++ [c]) := by
  rw [show ropeInsert (ropeInsert t p s) (p + s.length) [c] =
      (ropeInsert t p s).take (p + s.length) ++ [c] ++
        (ropeInsert t p s).drop (p + s.length) from rfl,
    take_ropeInsert t s p hp, drop_ropeInsert t s p hp, ropeInsert]
  simp

theorem ropeRemove_ropeInsert (t s : List Char) (p : Nat) (hp : p ≤ t.length) :
    ropeRemove (ropeInsert t p s) p (p + s.length) = t := by
  have hlen : (t.take p).length = p := by simp [hp]
  rw [ropeRemove, drop_ropeInsert t s p hp, ropeInsert, List.append_assoc,
    List.take_append_eq_append_take, hlen]
  simp [List.take_take, List.take_append_drop]

/-- The operations the claim interleaves: single-char `insert_string` calls
and undo boundaries (with empty pending edits, as in the post-command hook). -/
inductive WordOp where
  | ins (c : Char)
  | boundary

/-- One step of the interleaving. -/
def wordStep (x : Buffer × CursorSet) : WordOp → Buffer × CursorSet
  | .ins c => x.1.insert_string x.2 [c]
  | .boundary => (x.1.add_undo_boundary, x.2)

/-- Run a whole interleaving. -/
def runWordOps (x : Buffer × CursorSet) (ops : List WordOp) : Buffer × CursorSet :=
  ops.foldl wordStep x

/-- The characters inserted by an interleaving, in order. -/
def insChars : List WordOp → List Char
  | [] => []
  | .ins c :: rest => c :: insChars rest
  | .boundary :: rest => insChars rest

/-- The undo tree after a nonempty coalesced run of single-char inserts from
a fresh history: one committed entry holding the accumulated insert with the
pre-run cursor snapshot, nothing pending. -/
def c2MidTree (pIns : Nat) (s : List Char) (cs0 : CursorSet) (M : Nat) : UndoTree :=
  ⟨[⟨[Edit.insert pIns s], some cs0⟩], none, [], none, .none, none, none, M, 0⟩

/-- The buffer mid-run: original fields, spliced text, `modified`, and the
one-entry history. -/
def c2MidBuf (b0 : Buffer) (cs0 : CursorSet) (s : List Char) (M : Nat) : Buffer :=
  { b0 with
    text := ropeInsert b0.text cs0.primary.position s
    modified := true
    undo_tree := c2MidTree cs0.primary.position s cs0 M }

/-- A single non-boundary char is not a newline, so `insert_string` adds no
surrounding undo boundaries for it. -/
theorem newline_not_in_single (c : Char)
    (hc : UndoTree.is_word_boundary c = false) : [c].contains '\n' = false := by
  have hne : ¬ ('\n' : Char) = c := by
    intro h
    rw [← h] at hc
    exact absurd hc (by decide)
  show (('\n' == c) || List.elem '\n' []) = false
  rw [beq_eq_false_iff_ne.mpr hne]
  rfl

/-- `positions_descending` of a single-cursor set. -/
theorem positions_descending_single (cs : CursorSet) (h : cs.secondary = []) :
    cs.positions_descending = [cs.primary.position] := by
  simp [CursorSet.positions_descending, CursorSet.all_cursors, h, sortStable, insOrd]

/-- Insert adjustment never moves a cursor sitting at or before the insertion
point (the mark may move; the position projection is unaffected). -/
theorem adjust_insert_primary_position (cs : CursorSet) (pos len : Nat)
    (h : ¬ pos < cs.primary.position) :
    ((cs.adjust_positions_after_insert pos len).primary).position =
      cs.primary.position := by
  simp only [CursorSet.adjust_positions_after_insert, h, if_false, reduceIte]
  cases hm : cs.primary.mark with
  | none => rfl
  | some m => by_cases h2 : pos < m <;> simp [h2]

/-- Insert adjustment keeps a single-cursor set single. -/
theorem adjust_insert_secondary_nil (cs : CursorSet) (pos len : Nat)
    (h : cs.secondary = []) :
    (cs.adjust_positions_after_insert pos len).secondary = [] := by
  simp [CursorSet.adjust_positions_after_insert, h]

/-- Batch-to-batch coalescing of a fresh single-char insert at the end of the
accumulated one (no word-boundary chars anywhere, adjacent position): the
pending edit is appended to the committed entry's text. -/
theorem c2_coalesce (p0 : Nat) (s : List Char) (c : Char) (cs0 snap : CursorSet)
    (M : Nat)
    (hs : s.any UndoTree.is_word_boundary = false)
    (hc : UndoTree.is_word_boundary c = false) :
    UndoTree.try_coalesce_batch
      ⟨[⟨[Edit.insert p0 s], some cs0⟩], none, [Edit.insert (p0 + s.length) [c]],
        some snap, .none, none, none, M, 0⟩ =
      some ⟨[⟨[Edit.insert p0 (s ++ [c])], some cs0⟩], none,
        [Edit.insert (p0 + s.length) [c]], some snap, .none, none, none, M, 0⟩ := by
  unfold UndoTree.try_coalesce_batch
  simp [List.getLast?, Edit.isInsert, Edit.text, Edit.pos, hs, hc, List.enum,
    List.enumFrom, sortStable, insOrd, UndoTree.checkPairs, UndoTree.applyPairs,
    UndoTree.mergeEdit]

/-- The first single-char insert on a fresh-history single-cursor buffer
commits one entry holding the char, with the pre-insert cursor snapshot. -/
theorem c2_first_ins (b0 : Buffer) (cs0 : CursorSet) (M : Nat) (c : Char)
    (hro : b0.read_only = false) (htree : b0.undo_tree = UndoTree.new M)
    (hM : 1 ≤ M) (hsec : cs0.secondary = [])
    (hp0 : cs0.primary.position ≤ b0.text.length)
    (hc : UndoTree.is_word_boundary c = false) :
    (b0.insert_string cs0 [c]).1 = c2MidBuf b0 cs0 [c] M ∧
    (b0.insert_string cs0 [c]).2.secondary = [] ∧
    (b0.insert_string cs0 [c]).2.primary.position = cs0.primary.position + 1 := by
  have hnl := newline_not_in_single c hc
  have hne : ¬ ('\n' : Char) = c := by
    intro h
    rw [← h] at hc
    exact absurd hc (by decide)
  have hmin : min cs0.primary.position b0.text.length = cs0.primary.position :=
    Nat.min_eq_left hp0
  have hco : UndoTree.try_coalesce_batch
      ⟨[], none, [Edit.insert cs0.primary.position [c]], some cs0, .none, none, none,
        M, 0⟩ = none := rfl
  have hadjp := adjust_insert_primary_position cs0 cs0.primary.position 1 (lt_irrefl _)
  have hadjs := adjust_insert_secondary_nil cs0 cs0.primary.position 1 hsec
  refine ⟨?_, ?_, ?_⟩ <;>
    simp [Buffer.insert_string, Buffer.insertStringStep, hro, hnl, htree, hmin,
      positions_descending_single cs0 hsec, UndoTree.set_cursors_before,
      UndoTree.begin_batch, UndoTree.record_insert, UndoTree.end_batch, hco,
      UndoTree.flush_pending, UndoTree.gc_if_needed, UndoTree.new, hM,
      c2MidBuf, c2MidTree, CursorSet.sort, CursorSet.sort_and_merge,
      hne, hadjp, hadjs]

/-- A further single-char insert on the mid-state coalesces batch-to-batch
into the committed entry: the accumulated text grows by the char, the
snapshot and the rest of the state keep their shape. -/
theorem c2_step_mid (b0 : Buffer) (cs0 : CursorSet) (M : Nat) (s : List Char)
    (c : Char) (x : Buffer × CursorSet)
    (hro : b0.read_only = false)
    (hp0 : cs0.primary.position ≤ b0.text.length)
    (hsany : s.any UndoTree.is_word_boundary = false)
    (hc : UndoTree.is_word_boundary c = false)
    (hx1 : x.1 = c2MidBuf b0 cs0 s M)
    (hx2 : x.2.secondary = [])
    (hx3 : x.2.primary.position = cs0.primary.position + s.length) :
    (wordStep x (.ins c)).1 = c2MidBuf b0 cs0 (s ++ [c]) M ∧
    (wordStep x (.ins c)).2.secondary = [] ∧
    (wordStep x (.ins c)).2.primary.position =
      cs0.primary.position + (s ++ [c]).length := by
  have hnl := newline_not_in_single c hc
  have hne : ¬ ('\n' : Char) = c := by
    intro h
    rw [← h] at hc
    exact absurd hc (by decide)
  have hlen := ropeInsert_length b0.text s cs0.primary.position hp0
  have hmin : min (cs0.primary.position + s.length)
      (ropeInsert b0.text cs0.primary.position s).length =
      cs0.primary.position + s.length := by
    rw [hlen]
    exact Nat.min_eq_left (by omega)
  have hco := c2_coalesce cs0.primary.position s c cs0 x.2 M hsany hc
  have hadjp := adjust_insert_primary_position x.2 (cs0.primary.position + s.length) 1
    (by rw [hx3]; exact lt_irrefl _)
  have hadjs := adjust_insert_secondary_nil x.2 (cs0.primary.position + s.length) 1 hx2
  have hsnoc := ropeInsert_snoc b0.text s c cs0.primary.position hp0
  refine ⟨?_, ?_, ?_⟩ <;>
    simp [wordStep, hx1, Buffer.insert_string, Buffer.insertStringStep, hro, hnl, hne,
      c2MidBuf, c2MidTree, positions_descending_single x.2 hx2, hx3, hmin,
      UndoTree.set_cursors_before, UndoTree.begin_batch, UndoTree.record_insert,
      UndoTree.end_batch, hco, hsnoc, CursorSet.sort, CursorSet.sort_and_merge,
      hadjp, hadjs, Nat.add_assoc]

/-- An undo boundary on a fresh history is a complete no-op. -/
theorem c2_boundary_fresh (b0 : Buffer) (cs : CursorSet) (M : Nat)
    (htree : b0.undo_tree = UndoTree.new M) :
    wordStep (b0, cs) .boundary = (b0, cs) := by
  show (b0.add_undo_boundary, cs) = (b0, cs)
  have h2 : b0.undo_tree.add_boundary = b0.undo_tree := by
    rw [htree]
    rfl
  rw [Buffer.add_undo_boundary, h2]

/-- An undo boundary on the mid-state (no pending edits) is a complete
no-op. -/
theorem c2_boundary_mid (b0 : Buffer) (cs0 : CursorSet) (s : List Char)
    (M : Nat) (cs : CursorSet) :
    wordStep (c2MidBuf b0 cs0 s M, cs) .boundary = (c2MidBuf b0 cs0 s M, cs) :=
  rfl

/-- Running any remaining interleaving from the mid-state accumulates exactly
the inserted chars into the single committed entry. -/
theorem c2_run_mid (b0 : Buffer) (cs0 : CursorSet) (M : Nat)
    (hro : b0.read_only = false) (hp0 : cs0.primary.position ≤ b0.text.length) :
    ∀ (ops : List WordOp) (s : List Char) (x : Buffer × CursorSet),
      s.any UndoTree.is_word_boundary = false →
      (insChars ops).any UndoTree.is_word_boundary = false →
      x.1 = c2MidBuf b0 cs0 s M → x.2.secondary = [] →
      x.2.primary.position = cs0.primary.position + s.length →
      (runWordOps x ops).1 = c2MidBuf b0 cs0 (s ++ insChars ops) M ∧
      (runWordOps x ops).2.secondary = [] ∧
      (runWordOps x ops).2.primary.position =
        cs0.primary.position + (s ++ insChars ops).length := by
  intro ops
  induction ops with
  | nil =>
    intro s x _ _ hx1 hx2 hx3
    refine ⟨?_, hx2, ?_⟩
    · simpa [insChars] using hx1
    · simpa [insChars] using hx3
  | cons op rest ih =>
    intro s x hs hall hx1 hx2 hx3
    cases op with
    | boundary =>
      have hb1 : (wordStep x WordOp.boundary).1 = c2MidBuf b0 cs0 s M := by
        show x.1.add_undo_boundary = _
        rw [hx1]
        rfl
      have hb2 : (wordStep x WordOp.boundary).2 = x.2 := rfl
      show (runWordOps (wordStep x .boundary) rest).1 = _ ∧ _ ∧ _
      exact ih s (wordStep x .boundary) hs hall hb1 (hb2 ▸ hx2) (hb2 ▸ hx3)
    | ins c =>
      have hparts : UndoTree.is_word_boundary c = false ∧
          (insChars rest).any UndoTree.is_word_boundary = false := by
        have : insChars (WordOp.ins c :: rest) = c :: insChars rest := rfl
        rw [this] at hall
        simpa using hall
      have hstep := c2_step_mid b0 cs0 M s c x hro hp0 hs hparts.1 hx1 hx2 hx3
      have hsc : (s ++ [c]).any UndoTree.is_word_boundary = false := by
        simp [hs, hparts.1]
      have := ih (s ++ [c]) (wordStep x (.ins c)) hsc hparts.2 hstep.1 hstep.2.1
        hstep.2.2
      show (runWordOps (wordStep x (.ins c)) rest).1 = _ ∧ _ ∧ _
      simpa [List.append_assoc, insChars] using this

/-- Running a full interleaving with at least one insert from a fresh history
produces the single coalesced entry holding every inserted char. -/
theorem c2_run (b0 : Buffer) (cs0 : CursorSet) (M : Nat)
    (hro : b0.read_only = false) (htree : b0.undo_tree = UndoTree.new M)
    (hM : 1 ≤ M) (hsec : cs0.secondary = [])
    (hp0 : cs0.primary.position ≤ b0.text.length) :
    ∀ (ops : List WordOp),
      (insChars ops).any UndoTree.is_word_boundary = false →
      ¬ insChars ops = [] →
      (runWordOps (b0, cs0) ops).1 = c2MidBuf b0 cs0 (insChars ops) M ∧
      (runWordOps (b0, cs0) ops).2.secondary = [] ∧
      (runWordOps (b0, cs0) ops).2.primary.position =
        cs0.primary.position + (insChars ops).length := by
  intro ops
  induction ops with
  | nil => exact fun _ hne => absurd rfl hne
  | cons op rest ih =>
    cases op with
    | boundary =>
      intro hall hne
      have hrw : runWordOps (b0, cs0) (WordOp.boundary :: rest) =
          runWordOps (b0, cs0) rest := by
        show runWordOps (wordStep (b0, cs0) .boundary) rest = _
        rw [c2_boundary_fresh b0 cs0 M htree]
      rw [hrw]
      exact ih hall hne
    | ins c =>
      intro hall hne
      have hparts : UndoTree.is_word_boundary c = false ∧
          (insChars rest).any UndoTree.is_word_boundary = false := by
        have : insChars (WordOp.ins c :: rest) = c :: insChars rest := rfl
        rw [this] at hall
        simpa using hall
      have hfirst := c2_first_ins b0 cs0 M c hro htree hM hsec hp0 hparts.1
      have hmid := c2_run_mid b0 cs0 M hro hp0 rest [c] (wordStep (b0, cs0) (.ins c))
        (by simp [hparts.1]) hparts.2 hfirst.1 hfirst.2.1 hfirst.2.2
      show (runWordOps (wordStep (b0, cs0) (.ins c)) rest).1 = _ ∧ _ ∧ _
      exact hmid

/-- One undo on the mid-state restores the original text and the snapshot
cursor set, whatever the current cursors are. -/
theorem c2_undo_mid (b0 : Buffer) (cs0 : CursorSet) (M : Nat) (s : List Char)
    (cs : CursorSet) (hp0 : cs0.primary.position ≤ b0.text.length)
    (hs : ¬ s = []) :
    ((c2MidBuf b0 cs0 s M).undo cs).1.text = b0.text ∧
    ((c2MidBuf b0 cs0 s M).undo cs).2.1 = cs0 ∧
    ((c2MidBuf b0 cs0 s M).undo cs).2.2 = true := by
  have hlen := ropeInsert_length b0.text s cs0.primary.position hp0
  have hmin1 : min cs0.primary.position (b0.text.length + s.length) =
      cs0.primary.position := Nat.min_eq_left (by omega)
  have hmin2 : min (cs0.primary.position + s.length) (b0.text.length + s.length) =
      cs0.primary.position + s.length := Nat.min_eq_left (by omega)
  have hpos : 0 < s.length := List.length_pos.mpr hs
  have hlt : cs0.primary.position < b0.text.length + s.length := by omega
  have hrem := ropeRemove_ropeInsert b0.text s cs0.primary.position hp0
  refine ⟨?_, ?_, ?_⟩ <;>
    simp [Buffer.undo, UndoTree.undo, UndoTree.flush_pending, c2MidBuf, c2MidTree,
      Buffer.apply_undo_edits, UndoTree.toUndoEdit, Edit.inverse, hlen, hmin1, hmin2,
      hpos, hlt, hrem, lt_add_iff_pos_right]

/-- C2 as amended: starting from a buffer whose undo history is *fresh* (no
committed entries, no pending edits) with a single cursor inside the text, any
interleaving of single-char `insert_string` calls (chars neither whitespace
nor ASCII punctuation) with undo boundaries, containing at least one insert,
is reversed by exactly one `undo()`: the undo reports `true`, restores the
text from before the sequence, and restores the pre-sequence cursor set. (On a
buffer whose history already ends in a coalescible insert entry the original
claim fails — see the counterexample.) -/
theorem C2_amended (b0 : Buffer) (cs0 : CursorSet) (M : Nat) (ops : List WordOp)
    (hro : b0.read_only = false) (htree : b0.undo_tree = UndoTree.new M)
    (hM : 1 ≤ M) (hsec : cs0.secondary = [])
    (hp0 : cs0.primary.position ≤ b0.text.length)
    (hall : (insChars ops).any UndoTree.is_word_boundary = false)
    (hne : ¬ insChars ops = []) :
    ((runWordOps (b0, cs0) ops).1.undo (runWordOps (b0, cs0) ops).2).2.2 = true ∧
    ((runWordOps (b0, cs0) ops).1.undo (runWordOps (b0, cs0) ops).2).1.text =
      b0.text ∧
    ((runWordOps (b0, cs0) ops).1.undo (runWordOps (b0, cs0) ops).2).2.1 = cs0 := by
  have hrun := c2_run b0 cs0 M hro htree hM hsec hp0 ops hall hne
  rw [hrun.1]
  have hu := c2_undo_mid b0 cs0 M (insChars ops) (runWordOps (b0, cs0) ops).2 hp0 hne
  exact ⟨hu.2.2, hu.1, hu.2.1⟩

/-- C2 witness: the spec's "coalesced word insert + single undo" scenario with
a boundary between the keystrokes (`h`, boundary, `i` from an empty fresh
buffer), run through the amended theorem. -/
theorem C2_witness :
    ((runWordOps (Buffer.new 9 "w", CursorSet.new)
          [.ins 'h', .boundary, .ins 'i']).1.undo
        (runWordOps (Buffer.new 9 "w", CursorSet.new)
          [.ins 'h', .boundary, .ins 'i']).2).2.2 = true ∧
    ((runWordOps (Buffer.new 9 "w", CursorSet.new)
          [.ins 'h', .boundary, .ins 'i']).1.undo
        (runWordOps (Buffer.new 9 "w", CursorSet.new)
          [.ins 'h', .boundary, .ins 'i']).2).1.text = (Buffer.new 9 "w").text ∧
    ((runWordOps (Buffer.new 9 "w", CursorSet.new)
          [.ins 'h', .boundary, .ins 'i']).1.undo
        (runWordOps (Buffer.new 9 "w", CursorSet.new)
          [.ins 'h', .boundary, .ins 'i']).2).2.1 = CursorSet.new :=
  C2_amended (Buffer.new 9 "w") CursorSet.new 10000 [.ins 'h', .boundary, .ins 'i']
    rfl rfl (by decide) rfl (by decide) (by decide) (by decide)
